import Mathlib

/-!
Verification of the type-marshalling and resource-handle runtime of the
`vscode-wasm` component-model implementation.

The repository ships only the generated interface bindings (consumers of the
runtime): `testbeds/component-model/src/calculator.ts`,
`testbeds/component-model-async/src/calculator.ts`, `wasi/src/filesystem.ts`
and the generator tool `wasm-component-model/src/tools/options.ts`.
The runtime itself (`@vscode/wasm-component-model`: the canonical-ABI codec,
the type-descriptor graph and the resource handle table) is not part of the
visible sources, so its operations are modelled from the specification and
then checked against the concrete type-descriptor graphs and flattened
function signatures that the generated files do contain.

Machine integers are `Nat`/`Int` with explicit `% 2^w`; linear memory is a
byte-indexed map; fallible operations return `Except`.
-/

set_option maxRecDepth 4000
set_option maxHeartbeats 1000000

namespace Wcm

/-- Linear memory: a byte value for every address. -/
def Mem : Type := Nat → Nat

/-- Write a single byte (reduced mod 256) at address `a`. -/
def writeByte (m : Mem) (a b : Nat) : Mem :=
  fun x => if x = a then b % 256 else m x

/-- Write `w` bytes of `v` little-endian starting at `off`. -/
def writeLE : Mem → Nat → Nat → Nat → Mem
  | m, _, 0, _ => m
  | m, off, w + 1, v => writeLE (writeByte m off (v % 256)) (off + 1) w (v / 256)

/-- Read `w` bytes little-endian starting at `off`. -/
def readLE : Mem → Nat → Nat → Nat
  | _, _, 0 => 0
  | m, off, w + 1 => m off % 256 + 256 * readLE m (off + 1) w

/-- Write a list of bytes at consecutive addresses starting at `off`. -/
def writeBytesL : Mem → Nat → List Nat → Mem
  | m, _, [] => m
  | m, off, b :: bs => writeBytesL (writeByte m off b) (off + 1) bs

/-- Read `n` raw bytes starting at `off`. -/
def readBytesL : Mem → Nat → Nat → List Nat
  | _, _, 0 => []
  | m, off, n + 1 => m off % 256 :: readBytesL m (off + 1) n

/-- Round `a` up to the next multiple of `k` (identity for `k = 0`). -/
def alignUp (a k : Nat) : Nat :=
  if k = 0 then a else k * ((a + k - 1) / k)

theorem le_alignUp (a k : Nat) : a ≤ alignUp a k := by
  unfold alignUp
  split
  · exact Nat.le_refl a
  · rename_i hk
    have h := Nat.div_add_mod (a + k - 1) k
    have hr := Nat.mod_lt (a + k - 1) (Nat.pos_of_ne_zero hk)
    omega

theorem alignUp_lt_add (a k : Nat) (hk : 0 < k) : alignUp a k < a + k := by
  unfold alignUp
  have hk' : k ≠ 0 := Nat.pos_iff_ne_zero.mp hk
  simp only [hk', if_false]
  have h := Nat.div_add_mod (a + k - 1) k
  have := Nat.div_mul_le_self (a + k - 1) k
  omega

theorem writeByte_ne (m : Mem) (a b x : Nat) (h : x ≠ a) :
    writeByte m a b x = m x := by
  simp [writeByte, h]

theorem writeByte_self (m : Mem) (a b : Nat) :
    writeByte m a b a = b % 256 := by
  simp [writeByte]

theorem writeLE_out (m : Mem) (off w v x : Nat)
    (h : x < off ∨ off + w ≤ x) : writeLE m off w v x = m x := by
  induction w generalizing m off v with
  | zero => rfl
  | succ k ih =>
    show writeLE (writeByte m off (v % 256)) (off + 1) k (v / 256) x = m x
    rw [ih _ _ _ (by omega), writeByte_ne _ _ _ _ (by omega)]

theorem writeBytesL_out (m : Mem) (off : Nat) (bs : List Nat) (x : Nat)
    (h : x < off ∨ off + bs.length ≤ x) : writeBytesL m off bs x = m x := by
  induction bs generalizing m off with
  | nil => rfl
  | cons b tail ih =>
    show writeBytesL (writeByte m off b) (off + 1) tail x = m x
    simp only [List.length_cons] at h
    rw [ih _ _ (by omega), writeByte_ne _ _ _ _ (by omega)]

theorem readLE_ext (m m' : Mem) (off w : Nat)
    (h : ∀ a, off ≤ a → a < off + w → m a = m' a) :
    readLE m off w = readLE m' off w := by
  induction w generalizing off with
  | zero => rfl
  | succ k ih =>
    show m off % 256 + 256 * readLE m (off + 1) k
       = m' off % 256 + 256 * readLE m' (off + 1) k
    rw [h off (Nat.le_refl _) (by omega), ih (off + 1) (fun a h1 h2 => h a (by omega) (by omega))]

theorem readBytesL_ext (m m' : Mem) (off n : Nat)
    (h : ∀ a, off ≤ a → a < off + n → m a = m' a) :
    readBytesL m off n = readBytesL m' off n := by
  induction n generalizing off with
  | zero => rfl
  | succ k ih =>
    show m off % 256 :: readBytesL m (off + 1) k = m' off % 256 :: readBytesL m' (off + 1) k
    rw [h off (Nat.le_refl _) (by omega), ih (off + 1) (fun a h1 h2 => h a (by omega) (by omega))]

theorem readLE_writeLE (m : Mem) (off w v : Nat) (h : v < 256 ^ w) :
    readLE (writeLE m off w v) off w = v := by
  induction w generalizing m off v with
  | zero =>
    simp [Nat.pow_zero] at h
    simpa [readLE] using h.symm
  | succ k ih =>
    show readLE (writeLE (writeByte m off (v % 256)) (off + 1) k (v / 256)) off (k + 1) = v
    show (writeLE (writeByte m off (v % 256)) (off + 1) k (v / 256)) off % 256
       + 256 * readLE (writeLE (writeByte m off (v % 256)) (off + 1) k (v / 256)) (off + 1) k = v
    rw [writeLE_out _ _ _ _ _ (Or.inl (by omega)), writeByte_self]
    rw [ih _ _ _ (by
      have : 256 ^ (k + 1) = 256 ^ k * 256 := by ring
      rw [this] at h
      exact Nat.div_lt_of_lt_mul (by omega))]
    have h2 := Nat.div_add_mod v 256
    omega

theorem readLE_lt (m : Mem) (off w : Nat) : readLE m off w < 256 ^ w := by
  induction w generalizing off with
  | zero => simp [readLE]
  | succ k ih =>
    show m off % 256 + 256 * readLE m (off + 1) k < 256 ^ (k + 1)
    have h1 : m off % 256 < 256 := Nat.mod_lt _ (by omega)
    have h2 := ih (off + 1)
    have : 256 ^ (k + 1) = 256 * 256 ^ k := by ring
    omega

theorem readBytesL_writeBytesL (m : Mem) (off : Nat) (bs : List Nat)
    (h : ∀ b ∈ bs, b < 256) :
    readBytesL (writeBytesL m off bs) off bs.length = bs := by
  induction bs generalizing m off with
  | nil => rfl
  | cons b tail ih =>
    show (writeBytesL (writeByte m off b) (off + 1) tail) off % 256
         :: readBytesL (writeBytesL (writeByte m off b) (off + 1) tail) (off + 1) tail.length
       = b :: tail
    rw [writeBytesL_out _ _ _ _ (Or.inl (by omega)), writeByte_self]
    rw [ih _ _ (fun x hx => h x (List.mem_cons_of_mem _ hx))]
    have hb : b < 256 := h b (List.mem_cons_self _ _)
    have hb' : b % 256 % 256 = b := by omega
    rw [hb']

/-! ### UTF-8 codec

Modelled from the spec: the Primitive Codec of the runtime package (not under
`src/`) stores strings as UTF-8 bytes at a `(pointer, byteLength)` pair and
validates UTF-8 when lifting, failing with `EncodingError` on invalid
sequences without substituting replacement characters (spec section 4.1). -/

/-- A Unicode scalar value: below 0x110000 and not a surrogate. -/
def validScalar (c : Nat) : Bool :=
  decide (c < 0x110000) && !(decide (0xD800 ≤ c) && decide (c < 0xE000))

/-- Is `b` a UTF-8 continuation byte. -/
def isCont (b : Nat) : Bool :=
  decide (0x80 ≤ b) && decide (b < 0xC0)

/-- Standard UTF-8 encoding of one scalar value. -/
def utf8EncodeChar (c : Nat) : List Nat :=
  if c < 0x80 then [c]
  else if c < 0x800 then [0xC0 + c / 0x40, 0x80 + c % 0x40]
  else if c < 0x10000 then
    [0xE0 + c / 0x1000, 0x80 + c / 0x40 % 0x40, 0x80 + c % 0x40]
  else
    [0xF0 + c / 0x40000, 0x80 + c / 0x1000 % 0x40, 0x80 + c / 0x40 % 0x40, 0x80 + c % 0x40]

/-- UTF-8 encoding of a sequence of scalar values. -/
def utf8Encode : List Nat → List Nat
  | [] => []
  | c :: cs => utf8EncodeChar c ++ utf8Encode cs

mutual
/-- Strict UTF-8 decoding: rejects overlong forms, surrogates, values beyond
0x10FFFF, stray or missing continuation bytes. Never substitutes replacement
characters: either the exact decoded scalars or failure.
`utf8Dec2`, `utf8Dec3` and `utf8Dec4` decode the continuation bytes of a
2-, 3- and 4-byte sequence after its lead byte. -/
def utf8Decode : List Nat → Option (List Nat)
  | [] => some []
  | b :: bs =>
    if b < 0x80 then (utf8Decode bs).map (fun r => b :: r)
    else if b < 0xC2 then none
    else if b < 0xE0 then utf8Dec2 b bs
    else if b < 0xF0 then utf8Dec3 b bs
    else if b < 0xF5 then utf8Dec4 b bs
    else none
def utf8Dec2 : Nat → List Nat → Option (List Nat)
  | b, c1 :: bs1 =>
    if isCont c1 then
      (utf8Decode bs1).map (fun r => ((b - 0xC0) * 0x40 + (c1 - 0x80)) :: r)
    else none
  | _, [] => none
def utf8Dec3 : Nat → List Nat → Option (List Nat)
  | b, c1 :: c2 :: bs1 =>
    let c := (b - 0xE0) * 0x1000 + (c1 - 0x80) * 0x40 + (c2 - 0x80)
    if isCont c1 && isCont c2 && decide (0x800 ≤ c) && validScalar c then
      (utf8Decode bs1).map (fun r => c :: r)
    else none
  | _, _ => none
def utf8Dec4 : Nat → List Nat → Option (List Nat)
  | b, c1 :: c2 :: c3 :: bs1 =>
    let c := (b - 0xF0) * 0x40000 + (c1 - 0x80) * 0x1000 + (c2 - 0x80) * 0x40 + (c3 - 0x80)
    if isCont c1 && isCont c2 && isCont c3
        && decide (0x10000 ≤ c) && decide (c < 0x110000) then
      (utf8Decode bs1).map (fun r => c :: r)
    else none
  | _, _ => none
end

theorem validScalar_iff (c : Nat) :
    validScalar c = true ↔ (c < 0x110000 ∧ (c < 0xD800 ∨ 0xE000 ≤ c)) := by
  simp [validScalar]

theorem isCont_iff (b : Nat) : isCont b = true ↔ (0x80 ≤ b ∧ b < 0xC0) := by
  simp [isCont]

theorem utf8EncodeChar_lt (c : Nat) (h : validScalar c = true) :
    ∀ b ∈ utf8EncodeChar c, b < 256 := by
  rw [validScalar_iff] at h
  intro b hb
  unfold utf8EncodeChar at hb
  split at hb
  · simp at hb; omega
  · split at hb
    · simp at hb; omega
    · split at hb
      · simp at hb; omega
      · simp at hb; omega

theorem utf8Encode_lt (s : List Nat) (h : ∀ c ∈ s, validScalar c = true) :
    ∀ b ∈ utf8Encode s, b < 256 := by
  induction s with
  | nil => intro b hb; simp [utf8Encode] at hb
  | cons c cs ih =>
    intro b hb
    simp only [utf8Encode, List.mem_append] at hb
    rcases hb with hb | hb
    · exact utf8EncodeChar_lt c (h c (List.mem_cons_self _ _)) b hb
    · exact ih (fun x hx => h x (List.mem_cons_of_mem _ hx)) b hb

theorem utf8Decode_encodeChar (c : Nat) (rest : List Nat) (h : validScalar c = true) :
    utf8Decode (utf8EncodeChar c ++ rest) = (utf8Decode rest).map (fun r => c :: r) := by
  have hval := h
  rw [validScalar_iff] at h
  obtain ⟨hc, hsur⟩ := h
  by_cases h1 : c < 0x80
  · simp only [utf8EncodeChar, if_pos h1, List.cons_append, List.nil_append]
    rw [utf8Decode.eq_2]
    simp [h1]
  · by_cases h2 : c < 0x800
    · simp only [utf8EncodeChar, if_neg h1, if_pos h2, List.cons_append, List.nil_append]
      rw [utf8Decode.eq_2]
      have e1 : ¬(0xC0 + c / 0x40 < 0x80) := by omega
      have e2 : ¬(0xC0 + c / 0x40 < 0xC2) := by omega
      have e3 : 0xC0 + c / 0x40 < 0xE0 := by omega
      have e4 : isCont (0x80 + c % 0x40) = true := by rw [isCont_iff]; omega
      simp only [e1, if_false, e2, e3, if_true]
      rw [utf8Dec2.eq_1]
      have erec : (0xC0 + c / 0x40 - 0xC0) * 0x40 + (0x80 + c % 0x40 - 0x80) = c := by omega
      simp only [e4, if_true, erec]
    · by_cases h3 : c < 0x10000
      · simp only [utf8EncodeChar, if_neg h1, if_neg h2, if_pos h3, List.cons_append,
          List.nil_append]
        rw [utf8Decode.eq_2]
        have e1 : ¬(0xE0 + c / 0x1000 < 0x80) := by omega
        have e2 : ¬(0xE0 + c / 0x1000 < 0xC2) := by omega
        have e3 : ¬(0xE0 + c / 0x1000 < 0xE0) := by omega
        have e4 : 0xE0 + c / 0x1000 < 0xF0 := by omega
        have e5 : isCont (0x80 + c / 0x40 % 0x40) = true := by rw [isCont_iff]; omega
        have e6 : isCont (0x80 + c % 0x40) = true := by rw [isCont_iff]; omega
        have erec : (0xE0 + c / 0x1000 - 0xE0) * 0x1000 + (0x80 + c / 0x40 % 0x40 - 0x80) * 0x40
            + (0x80 + c % 0x40 - 0x80) = c := by omega
        simp only [e1, if_false, e2, e3, e4, if_true]
        rw [utf8Dec3.eq_1]
        have e7 : 0x800 ≤ c := by omega
        simp only [erec, e5, e6]
        simp [e7, hval]
      · simp only [utf8EncodeChar, if_neg h1, if_neg h2, if_neg h3, List.cons_append,
          List.nil_append]
        rw [utf8Decode.eq_2]
        have e1 : ¬(0xF0 + c / 0x40000 < 0x80) := by omega
        have e2 : ¬(0xF0 + c / 0x40000 < 0xC2) := by omega
        have e3 : ¬(0xF0 + c / 0x40000 < 0xE0) := by omega
        have e4 : ¬(0xF0 + c / 0x40000 < 0xF0) := by omega
        have e5 : 0xF0 + c / 0x40000 < 0xF5 := by omega
        have e6 : isCont (0x80 + c / 0x1000 % 0x40) = true := by rw [isCont_iff]; omega
        have e7 : isCont (0x80 + c / 0x40 % 0x40) = true := by rw [isCont_iff]; omega
        have e8 : isCont (0x80 + c % 0x40) = true := by rw [isCont_iff]; omega
        have erec : (0xF0 + c / 0x40000 - 0xF0) * 0x40000 + (0x80 + c / 0x1000 % 0x40 - 0x80)
            * 0x1000 + (0x80 + c / 0x40 % 0x40 - 0x80) * 0x40 + (0x80 + c % 0x40 - 0x80) = c := by
          omega
        simp only [e1, if_false, e2, e3, e4, e5, if_true]
        rw [utf8Dec4.eq_1]
        have e9 : 0x10000 ≤ c := by omega
        simp only [erec, e6, e7, e8]
        simp [e9, hc]

theorem utf8Decode_utf8Encode (s : List Nat) (h : ∀ c ∈ s, validScalar c = true) :
    utf8Decode (utf8Encode s) = some s := by
  induction s with
  | nil => simp [utf8Encode, utf8Decode]
  | cons c cs ih =>
    show utf8Decode (utf8EncodeChar c ++ utf8Encode cs) = some (c :: cs)
    rw [utf8Decode_encodeChar c _ (h c (List.mem_cons_self _ _)),
      ih (fun x hx => h x (List.mem_cons_of_mem _ hx))]
    rfl

mutual
/-- Decoding is lossless: a successful decode re-encodes to exactly the
original bytes, and every decoded scalar is valid. -/
theorem utf8Encode_utf8Decode : ∀ (bs s : List Nat), utf8Decode bs = some s →
    utf8Encode s = bs ∧ ∀ c ∈ s, validScalar c = true
  | [], s, h => by
    rw [utf8Decode.eq_1] at h
    obtain rfl : s = [] := by simpa using h.symm
    exact ⟨rfl, by simp⟩
  | b :: bs, s, h => by
    rw [utf8Decode.eq_2] at h
    by_cases h1 : b < 0x80
    · rw [if_pos h1] at h
      rcases Option.map_eq_some'.mp h with ⟨s1, hs1, rfl⟩
      obtain ⟨he, hv⟩ := utf8Encode_utf8Decode bs s1 hs1
      refine ⟨?_, ?_⟩
      · show utf8EncodeChar b ++ utf8Encode s1 = b :: bs
        rw [he, utf8EncodeChar, if_pos h1]
        rfl
      · intro c hc
        rcases List.mem_cons.mp hc with rfl | hc
        · rw [validScalar_iff]; omega
        · exact hv c hc
    · rw [if_neg h1] at h
      by_cases h2 : b < 0xC2
      · rw [if_pos h2] at h; exact absurd h (by simp)
      · rw [if_neg h2] at h
        by_cases h3 : b < 0xE0
        · rw [if_pos h3] at h
          exact utf8Encode_utf8Dec2 b bs s (by omega) h3 h
        · rw [if_neg h3] at h
          by_cases h4 : b < 0xF0
          · rw [if_pos h4] at h
            exact utf8Encode_utf8Dec3 b bs s (by omega) h4 h
          · rw [if_neg h4] at h
            by_cases h5 : b < 0xF5
            · rw [if_pos h5] at h
              exact utf8Encode_utf8Dec4 b bs s (by omega) h5 h
            · rw [if_neg h5] at h; exact absurd h (by simp)
theorem utf8Encode_utf8Dec2 : ∀ (b : Nat) (bs s : List Nat), 0xC2 ≤ b → b < 0xE0 →
    utf8Dec2 b bs = some s → utf8Encode s = b :: bs ∧ ∀ c ∈ s, validScalar c = true
  | b, [], s, _, _, h => by rw [utf8Dec2.eq_2] at h; exact absurd h (by simp)
  | b, c1 :: bs1, s, hb1, hb2, h => by
    rw [utf8Dec2.eq_1] at h
    by_cases hc1 : isCont c1 = true
    · rw [if_pos hc1] at h
      rw [isCont_iff] at hc1
      rcases Option.map_eq_some'.mp h with ⟨s1, hs1, rfl⟩
      obtain ⟨he, hv⟩ := utf8Encode_utf8Decode bs1 s1 hs1
      set c := (b - 0xC0) * 0x40 + (c1 - 0x80) with hcdef
      have hr1 : 0x80 ≤ c := by omega
      have hr2 : c < 0x800 := by omega
      refine ⟨?_, ?_⟩
      · show utf8EncodeChar c ++ utf8Encode s1 = b :: c1 :: bs1
        rw [he, utf8EncodeChar, if_neg (by omega), if_pos hr2]
        have d1 : 0xC0 + c / 0x40 = b := by omega
        have d2 : 0x80 + c % 0x40 = c1 := by omega
        rw [d1, d2]
        rfl
      · intro x hx
        rcases List.mem_cons.mp hx with rfl | hx
        · rw [validScalar_iff]; omega
        · exact hv x hx
    · rw [if_neg hc1] at h; exact absurd h (by simp)
theorem utf8Encode_utf8Dec3 : ∀ (b : Nat) (bs s : List Nat), 0xE0 ≤ b → b < 0xF0 →
    utf8Dec3 b bs = some s → utf8Encode s = b :: bs ∧ ∀ c ∈ s, validScalar c = true
  | b, [], s, _, _, h => by
    rw [show utf8Dec3 b [] = Option.none from rfl] at h
    exact absurd h (by simp)
  | b, [c1], s, _, _, h => by
    rw [show utf8Dec3 b [c1] = Option.none from rfl] at h
    exact absurd h (by simp)
  | b, c1 :: c2 :: bs1, s, hb1, hb2, h => by
    rw [utf8Dec3.eq_1] at h
    simp only [Bool.and_eq_true, decide_eq_true_eq] at h
    split at h
    · rename_i hcond
      obtain ⟨⟨⟨hc1, hc2⟩, hge⟩, hvs⟩ := hcond
      rw [isCont_iff] at hc1 hc2
      rcases Option.map_eq_some'.mp h with ⟨s1, hs1, rfl⟩
      obtain ⟨he, hv⟩ := utf8Encode_utf8Decode bs1 s1 hs1
      set c := (b - 0xE0) * 0x1000 + (c1 - 0x80) * 0x40 + (c2 - 0x80) with hcdef
      have hr2 : c < 0x10000 := by omega
      refine ⟨?_, ?_⟩
      · show utf8EncodeChar c ++ utf8Encode s1 = b :: c1 :: c2 :: bs1
        rw [he, utf8EncodeChar, if_neg (by omega), if_neg (by omega), if_pos hr2]
        have d1 : 0xE0 + c / 0x1000 = b := by omega
        have d2 : 0x80 + c / 0x40 % 0x40 = c1 := by omega
        have d3 : 0x80 + c % 0x40 = c2 := by omega
        rw [d1, d2, d3]
        rfl
      · intro x hx
        rcases List.mem_cons.mp hx with rfl | hx
        · exact hvs
        · exact hv x hx
    · exact absurd h (by simp)
theorem utf8Encode_utf8Dec4 : ∀ (b : Nat) (bs s : List Nat), 0xF0 ≤ b → b < 0xF5 →
    utf8Dec4 b bs = some s → utf8Encode s = b :: bs ∧ ∀ c ∈ s, validScalar c = true
  | b, [], s, _, _, h => by
    rw [show utf8Dec4 b [] = Option.none from rfl] at h
    exact absurd h (by simp)
  | b, [c1], s, _, _, h => by
    rw [show utf8Dec4 b [c1] = Option.none from rfl] at h
    exact absurd h (by simp)
  | b, [c1, c2], s, _, _, h => by
    rw [show utf8Dec4 b [c1, c2] = Option.none from rfl] at h
    exact absurd h (by simp)
  | b, c1 :: c2 :: c3 :: bs1, s, hb1, hb2, h => by
    rw [utf8Dec4.eq_1] at h
    simp only [Bool.and_eq_true, decide_eq_true_eq] at h
    split at h
    · rename_i hcond
      obtain ⟨⟨⟨⟨hc1, hc2⟩, hc3⟩, hge⟩, hlt⟩ := hcond
      rw [isCont_iff] at hc1 hc2 hc3
      rcases Option.map_eq_some'.mp h with ⟨s1, hs1, rfl⟩
      obtain ⟨he, hv⟩ := utf8Encode_utf8Decode bs1 s1 hs1
      set c := (b - 0xF0) * 0x40000 + (c1 - 0x80) * 0x1000 + (c2 - 0x80) * 0x40 + (c3 - 0x80)
        with hcdef
      refine ⟨?_, ?_⟩
      · show utf8EncodeChar c ++ utf8Encode s1 = b :: c1 :: c2 :: c3 :: bs1
        rw [he, utf8EncodeChar, if_neg (by omega), if_neg (by omega), if_neg (by omega)]
        have d1 : 0xF0 + c / 0x40000 = b := by omega
        have d2 : 0x80 + c / 0x1000 % 0x40 = c1 := by omega
        have d3 : 0x80 + c / 0x40 % 0x40 = c2 := by omega
        have d4 : 0x80 + c % 0x40 = c3 := by omega
        rw [d1, d2, d3, d4]
        rfl
      · intro x hx
        rcases List.mem_cons.mp hx with rfl | hx
        · rw [validScalar_iff]; omega
        · exact hv x hx
    · exact absurd h (by simp)
end

/-! ### The type-descriptor graph

Modelled from the spec: the `TypeDescriptor` data model of the runtime package
(not under `src/`), spec section 3: primitives, record, variant, enum, flags,
option, result, list, tuple, own- and borrow-handles. Enum, option, result and
tuple are the derived forms the spec itself gives for them (an enum is a
variant with no payloads, an option a two-case variant, a result a two-case
variant with two payload descriptors, a tuple a record with positional
fields). 32/64-bit floats are omitted (floating point is outside the
embedding). -/

mutual
inductive Ty where
  | bool : Ty
  | u8 : Ty
  | u16 : Ty
  | u32 : Ty
  | u64 : Ty
  | s8 : Ty
  | s16 : Ty
  | s32 : Ty
  | s64 : Ty
  | char : Ty
  | wstring : Ty
  | list (elem : Ty) : Ty
  | record (fields : TyList) : Ty
  | variant (cases : CaseList) : Ty
  | flags (n : Nat) : Ty
  | own : Ty
  | borrow : Ty
  deriving DecidableEq
inductive TyList where
  | nil : TyList
  | cons (head : Ty) (tail : TyList) : TyList
  deriving DecidableEq
inductive OptTy where
  | noneT : OptTy
  | someT (t : Ty) : OptTy
  deriving DecidableEq
inductive CaseList where
  | nil : CaseList
  | cons (c : OptTy) (tail : CaseList) : CaseList
  deriving DecidableEq
end

/-- A tuple is a record with positional fields (spec section 3). -/
def Ty.tuple (elems : TyList) : Ty := Ty.record elems

/-- Case list of `n` payload-free cases. -/
def caseListNone : Nat → CaseList
  | 0 => CaseList.nil
  | n + 1 => CaseList.cons OptTy.noneT (caseListNone n)

/-- An enum is a variant with no payloads (spec section 3). -/
def Ty.enum (n : Nat) : Ty := Ty.variant (caseListNone n)

/-- An option is a present/absent discriminant plus a payload (spec section 3). -/
def Ty.option (t : Ty) : Ty :=
  Ty.variant (CaseList.cons OptTy.noneT (CaseList.cons (OptTy.someT t) CaseList.nil))

/-- A result is a two-case discriminant with one of two payload descriptors. -/
def Ty.result (okT errT : OptTy) : Ty :=
  Ty.variant (CaseList.cons okT (CaseList.cons errT CaseList.nil))

/-- Number of cases of a variant. -/
def caseCount : CaseList → Nat
  | .nil => 0
  | .cons _ cs => caseCount cs + 1

/-- Case at index `d` (callers check `d < caseCount` first). -/
def caseGet : CaseList → Nat → OptTy
  | .nil, _ => OptTy.noneT
  | .cons c _, 0 => c
  | .cons _ cs, d + 1 => caseGet cs d

/-- Discriminant byte width: the smallest unsigned integer width covering the
case count (spec section 3, Variant). -/
def discSize (n : Nat) : Nat :=
  if n ≤ 0x100 then 1 else if n ≤ 0x10000 then 2 else 4

/-- Number of 32-bit words used to store an `n`-bit flags value: the minimal
number of 32-bit words covering the bit count (spec section 3, Flags). -/
def flagsWords (n : Nat) : Nat := (n + 31) / 32

mutual
/-- Byte size of the wire representation of a type (spec `sizeOf`). -/
def byteSize : Ty → Nat
  | .bool => 1
  | .u8 => 1
  | .u16 => 2
  | .u32 => 4
  | .u64 => 8
  | .s8 => 1
  | .s16 => 2
  | .s32 => 4
  | .s64 => 8
  | .char => 4
  | .wstring => 8
  | .list _ => 8
  | .record fs => alignUp (fieldsEndOff fs 0) (fieldsAlign fs)
  | .variant cs =>
    alignUp (alignUp (discSize (caseCount cs)) (casesMaxAlign cs) + casesMaxSize cs)
      (max (discSize (caseCount cs)) (casesMaxAlign cs))
  | .flags n => 4 * flagsWords n
  | .own => 4
  | .borrow => 4
/-- Alignment of the wire representation of a type (spec `alignOf`). -/
def alignOf : Ty → Nat
  | .bool => 1
  | .u8 => 1
  | .u16 => 2
  | .u32 => 4
  | .u64 => 8
  | .s8 => 1
  | .s16 => 2
  | .s32 => 4
  | .s64 => 8
  | .char => 4
  | .wstring => 4
  | .list _ => 4
  | .record fs => fieldsAlign fs
  | .variant cs => max (discSize (caseCount cs)) (casesMaxAlign cs)
  | .flags _ => 4
  | .own => 4
  | .borrow => 4
/-- End offset after laying out fields sequentially from relative offset
`acc`, each field aligned to its own alignment (spec section 4.2, Record). -/
def fieldsEndOff : TyList → Nat → Nat
  | .nil, acc => acc
  | .cons t ts, acc => fieldsEndOff ts (alignUp acc (alignOf t) + byteSize t)
/-- Maximum alignment over the fields of a record. -/
def fieldsAlign : TyList → Nat
  | .nil => 1
  | .cons t ts => max (alignOf t) (fieldsAlign ts)
/-- Maximum payload size over the cases of a variant. -/
def casesMaxSize : CaseList → Nat
  | .nil => 0
  | .cons c cs => max (optSize c) (casesMaxSize cs)
/-- Maximum payload alignment over the cases of a variant. -/
def casesMaxAlign : CaseList → Nat
  | .nil => 1
  | .cons c cs => max (optAlign c) (casesMaxAlign cs)
def optSize : OptTy → Nat
  | .noneT => 0
  | .someT t => byteSize t
def optAlign : OptTy → Nat
  | .noneT => 1
  | .someT t => alignOf t
end

/-- Offset of the active payload inside a variant: the discriminant comes
first, then padding to the maximum alignment over all case payloads (spec
section 4.2, Variant). -/
def payloadOff (cs : CaseList) : Nat :=
  alignUp (discSize (caseCount cs)) (casesMaxAlign cs)

/-! ### Values

Native values as seen on one side of the boundary. Unsigned integers,
booleans (0/1), chars, enum discriminants, flags bit-sets and resource
handles are `num`; signed integers are `sint`; strings are sequences of
Unicode scalar values; records/tuples, variants (with enum, option and
result as two- and n-case variants) and lists follow the descriptor shape. -/

mutual
inductive Value where
  | num (n : Nat) : Value
  | sint (i : Int) : Value
  | str (s : List Nat) : Value
  | record (fields : ValueList) : Value
  | variant (tag : Nat) (payload : OptValue) : Value
  | list (elems : ValueList) : Value
  deriving DecidableEq
inductive ValueList where
  | nil : ValueList
  | cons (v : Value) (tail : ValueList) : ValueList
  deriving DecidableEq
inductive OptValue where
  | none : OptValue
  | some (v : Value) : OptValue
  deriving DecidableEq
end

/-- Number of elements of a value list. -/
def lenV : ValueList → Nat
  | .nil => 0
  | .cons _ vs => lenV vs + 1

/-- Errors of the runtime (spec section 7 taxonomy; the subset decidable by
the codec and the handle table). -/
inductive CmError where
  | EncodingError : CmError
  | InvalidDiscriminant : CmError
  | OutOfBounds : CmError
  | UnknownHandle : CmError
  | ResourceInUse : CmError
  deriving DecidableEq

/-- Implementation-defined sanity ceiling on list lengths: a lifted list
length above it fails with `OutOfBounds` before any element is read
(spec section 4.2, List). -/
def listCeiling : Nat := 0x80000000

mutual
/-- Does a value lie within the domain of a type descriptor. -/
def inDomain : Ty → Value → Bool
  | .bool, .num b => decide (b < 2)
  | .u8, .num n => decide (n < 0x100)
  | .u16, .num n => decide (n < 0x10000)
  | .u32, .num n => decide (n < 0x100000000)
  | .u64, .num n => decide (n < 0x10000000000000000)
  | .s8, .sint i => decide (-0x80 ≤ i ∧ i < 0x80)
  | .s16, .sint i => decide (-0x8000 ≤ i ∧ i < 0x8000)
  | .s32, .sint i => decide (-0x80000000 ≤ i ∧ i < 0x80000000)
  | .s64, .sint i => decide (-0x8000000000000000 ≤ i ∧ i < 0x8000000000000000)
  | .char, .num c => validScalar c
  | .wstring, .str s => s.all validScalar
  | .flags n, .num v => decide (v < 2 ^ (32 * flagsWords n))
  | .own, .num h => decide (h < 0x100000000)
  | .borrow, .num h => decide (h < 0x100000000)
  | .list t, .list es => decide (lenV es ≤ listCeiling) && elemsInDomain t es
  | .record fs, .record vs => fieldsInDomain fs vs
  | .variant cs, .variant tag p =>
    decide (tag < caseCount cs) && decide (tag < 0x100000000) && optInDomain (caseGet cs tag) p
  | _, _ => false
def elemsInDomain : Ty → ValueList → Bool
  | _, .nil => true
  | t, .cons v vs => inDomain t v && elemsInDomain t vs
def fieldsInDomain : TyList → ValueList → Bool
  | .nil, .nil => true
  | .cons t ts, .cons v vs => inDomain t v && fieldsInDomain ts vs
  | _, _ => false
def optInDomain : OptTy → OptValue → Bool
  | .noneT, .none => true
  | .someT t, .some v => inDomain t v
  | _, _ => false
end

/-! ### Lift: decode wire bytes into a native value

Modelled from the spec, sections 4.1 and 4.2: every read is bounds-checked
against the memory size and fails with `OutOfBounds` when out of range;
an out-of-range variant discriminant fails with `InvalidDiscriminant`;
invalid UTF-8 and invalid scalar values fail with `EncodingError`; a list is
read as a `(ptr, len)` pair and `len` elements at `ptr + i * stride`, failing
with `OutOfBounds` before any element read when `len` exceeds the sanity
ceiling or `ptr + len * stride` exceeds the memory size. -/

/-- Bounds-checked little-endian read of `w` bytes. -/
def readNum (m : Mem) (msize off w : Nat) : Except CmError Nat :=
  if off + w ≤ msize then Except.ok (readLE m off w) else Except.error CmError.OutOfBounds

/-- Signed reinterpretation of a `w`-byte unsigned wire value. -/
def sintOfWire (w u : Nat) : Int :=
  if u < 2 ^ (8 * w - 1) then (u : Int) else (u : Int) - 2 ^ (8 * w)

/-- Two's-complement wire representation of a signed value. -/
def wireOfSint (w : Nat) (i : Int) : Nat := (i % ((2 : Int) ^ (8 * w))).toNat

/-- Lift `count` list elements at stride `stride` via the element lifter. -/
def liftLoop (f : Nat → Except CmError Value) : Nat → Nat → Nat → Except CmError ValueList
  | _, _, 0 => Except.ok ValueList.nil
  | addr, stride, n + 1 => do
    let v ← f addr
    let rest ← liftLoop f (addr + stride) stride n
    Except.ok (ValueList.cons v rest)

mutual
/-- Lift a wire value of type `t` from memory `m` (of size `msize`) at
offset `off`. -/
def lift : Ty → Mem → Nat → Nat → Except CmError Value
  | .bool, m, msize, off => (readNum m msize off 1).map (fun b => Value.num (min b 1))
  | .u8, m, msize, off => (readNum m msize off 1).map Value.num
  | .u16, m, msize, off => (readNum m msize off 2).map Value.num
  | .u32, m, msize, off => (readNum m msize off 4).map Value.num
  | .u64, m, msize, off => (readNum m msize off 8).map Value.num
  | .s8, m, msize, off => (readNum m msize off 1).map (fun u => Value.sint (sintOfWire 1 u))
  | .s16, m, msize, off => (readNum m msize off 2).map (fun u => Value.sint (sintOfWire 2 u))
  | .s32, m, msize, off => (readNum m msize off 4).map (fun u => Value.sint (sintOfWire 4 u))
  | .s64, m, msize, off => (readNum m msize off 8).map (fun u => Value.sint (sintOfWire 8 u))
  | .char, m, msize, off => do
    let c ← readNum m msize off 4
    if validScalar c then Except.ok (Value.num c) else Except.error CmError.EncodingError
  | .wstring, m, msize, off => do
    let p ← readNum m msize off 4
    let len ← readNum m msize (off + 4) 4
    if p + len ≤ msize then
      match utf8Decode (readBytesL m p len) with
      | Option.some s => Except.ok (Value.str s)
      | Option.none => Except.error CmError.EncodingError
    else Except.error CmError.OutOfBounds
  | .list t, m, msize, off => do
    let p ← readNum m msize off 4
    let len ← readNum m msize (off + 4) 4
    if len ≤ listCeiling ∧ p + len * byteSize t ≤ msize then
      (liftLoop (lift t m msize) p (byteSize t) len).map Value.list
    else Except.error CmError.OutOfBounds
  | .record fs, m, msize, off => (liftFields fs m msize off 0).map Value.record
  | .variant cs, m, msize, off => do
    let d ← readNum m msize off (discSize (caseCount cs))
    if d < caseCount cs then
      (liftCase cs d m msize (off + payloadOff cs)).map (Value.variant d)
    else Except.error CmError.InvalidDiscriminant
  | .flags n, m, msize, off => (readNum m msize off (4 * flagsWords n)).map Value.num
  | .own, m, msize, off => (readNum m msize off 4).map Value.num
  | .borrow, m, msize, off => (readNum m msize off 4).map Value.num
/-- Lift record fields sequentially; `acc` is the relative offset reached so
far, each field is aligned to its own alignment before being read. -/
def liftFields : TyList → Mem → Nat → Nat → Nat → Except CmError ValueList
  | .nil, _, _, _, _ => Except.ok ValueList.nil
  | .cons t ts, m, msize, off, acc => do
    let v ← lift t m msize (off + alignUp acc (alignOf t))
    let rest ← liftFields ts m msize off (alignUp acc (alignOf t) + byteSize t)
    Except.ok (ValueList.cons v rest)
/-- Lift the payload of case `d`: only the active case's descriptor is ever
consulted, storage belonging to inactive cases is never interpreted. -/
def liftCase : CaseList → Nat → Mem → Nat → Nat → Except CmError OptValue
  | .nil, _, _, _, _ => Except.error CmError.InvalidDiscriminant
  | .cons c _, 0, m, msize, off => liftOpt c m msize off
  | .cons _ cs, d + 1, m, msize, off => liftCase cs d m msize off
def liftOpt : OptTy → Mem → Nat → Nat → Except CmError OptValue
  | .noneT, _, _, _ => Except.ok OptValue.none
  | .someT t, m, msize, off => (lift t m msize off).map OptValue.some
end

/-! ### Lower: encode a native value into wire bytes

Modelled from the spec, sections 4.1 and 4.2. The lowering state carries the
linear memory and an allocation cursor `next` for out-of-line data (list
elements, string bytes); the caller reserves `[off, off + byteSize t)` below
`next` for the inline part. -/

structure LowerState where
  mem : Mem
  next : Nat

/-- Numeric payload of a value (booleans, unsigned integers, chars, enum
discriminants, flags bit-sets, handles). -/
def Value.asNum : Value → Nat
  | .num n => n
  | _ => 0

/-- Signed payload of a value. -/
def Value.asInt : Value → Int
  | .sint i => i
  | _ => 0

/-- Scalar sequence of a string value. -/
def Value.asStr : Value → List Nat
  | .str s => s
  | _ => []

/-- Element list of a list value. -/
def Value.asElems : Value → ValueList
  | .list es => es
  | _ => ValueList.nil

/-- Field list of a record value. -/
def Value.asFields : Value → ValueList
  | .record vs => vs
  | _ => ValueList.nil

/-- Discriminant of a variant value. -/
def Value.asTag : Value → Nat
  | .variant tag _ => tag
  | _ => 0

/-- Payload of a variant value. -/
def Value.asPayload : Value → OptValue
  | .variant _ p => p
  | _ => OptValue.none

def ValueList.headV : ValueList → Value
  | .cons v _ => v
  | .nil => Value.num 0

def ValueList.tailV : ValueList → ValueList
  | .cons _ vs => vs
  | .nil => ValueList.nil

def OptValue.getV : OptValue → Value
  | .some v => v
  | .none => Value.num 0

/-- Lower the elements of a list sequentially via the element lowerer. -/
def lowerLoopE (f : Value → Nat → LowerState → LowerState) (stride : Nat) :
    ValueList → Nat → LowerState → LowerState
  | .nil, _, s => s
  | .cons v vs, addr, s => lowerLoopE f stride vs (addr + stride) (f v addr s)

mutual
/-- Lower value `v` of type `t` at offset `off`. Out-of-line data (list
elements, string bytes) is placed at the allocation cursor `s.next`; the
caller reserves `[off, off + byteSize t)` below `s.next` for the inline
part. -/
def lower : Ty → Value → Nat → LowerState → LowerState
  | .bool, v, off, s => ⟨writeLE s.mem off 1 v.asNum, s.next⟩
  | .u8, v, off, s => ⟨writeLE s.mem off 1 v.asNum, s.next⟩
  | .u16, v, off, s => ⟨writeLE s.mem off 2 v.asNum, s.next⟩
  | .u32, v, off, s => ⟨writeLE s.mem off 4 v.asNum, s.next⟩
  | .u64, v, off, s => ⟨writeLE s.mem off 8 v.asNum, s.next⟩
  | .s8, v, off, s => ⟨writeLE s.mem off 1 (wireOfSint 1 v.asInt), s.next⟩
  | .s16, v, off, s => ⟨writeLE s.mem off 2 (wireOfSint 2 v.asInt), s.next⟩
  | .s32, v, off, s => ⟨writeLE s.mem off 4 (wireOfSint 4 v.asInt), s.next⟩
  | .s64, v, off, s => ⟨writeLE s.mem off 8 (wireOfSint 8 v.asInt), s.next⟩
  | .char, v, off, s => ⟨writeLE s.mem off 4 v.asNum, s.next⟩
  | .wstring, v, off, s =>
    let bs := utf8Encode v.asStr
    let p := s.next
    ⟨writeBytesL (writeLE (writeLE s.mem off 4 p) (off + 4) 4 bs.length) p bs, p + bs.length⟩
  | .list t, v, off, s =>
    let es := v.asElems
    let p := alignUp s.next (alignOf t)
    lowerLoopE (lower t) (byteSize t) es p
      ⟨writeLE (writeLE s.mem off 4 p) (off + 4) 4 (lenV es), p + lenV es * byteSize t⟩
  | .record fs, v, off, s => lowerFields fs v.asFields off 0 s
  | .variant cs, v, off, s =>
    lowerCase cs v.asTag v.asPayload (off + payloadOff cs)
      ⟨writeLE s.mem off (discSize (caseCount cs)) v.asTag, s.next⟩
  | .flags n, v, off, s => ⟨writeLE s.mem off (4 * flagsWords n) v.asNum, s.next⟩
  | .own, v, off, s => ⟨writeLE s.mem off 4 v.asNum, s.next⟩
  | .borrow, v, off, s => ⟨writeLE s.mem off 4 v.asNum, s.next⟩
/-- Lower record fields sequentially from relative offset `acc`. -/
def lowerFields : TyList → ValueList → Nat → Nat → LowerState → LowerState
  | .nil, _, _, _, s => s
  | .cons t ts, vs, off, acc, s =>
    lowerFields ts vs.tailV off (alignUp acc (alignOf t) + byteSize t)
      (lower t vs.headV (off + alignUp acc (alignOf t)) s)
/-- Lower the payload of the active case `d`. -/
def lowerCase : CaseList → Nat → OptValue → Nat → LowerState → LowerState
  | .nil, _, _, _, s => s
  | .cons c _, 0, pl, off, s => lowerOpt c pl off s
  | .cons _ cs, d + 1, pl, off, s => lowerCase cs d pl off s
def lowerOpt : OptTy → OptValue → Nat → LowerState → LowerState
  | .noneT, _, _, s => s
  | .someT t, pl, off, s => lower t pl.getV off s
end

/-! ### Layout lemmas -/

mutual
theorem alignOf_pos : ∀ t : Ty, 1 ≤ alignOf t
  | .bool | .u8 | .u16 | .u32 | .u64 | .s8 | .s16 | .s32 | .s64 | .char
  | .wstring | .list _ | .flags _ | .own | .borrow => by first
    | exact Nat.le_refl 1
    | simp [alignOf]
  | .record fs => fieldsAlign_pos fs
  | .variant cs => by
    show 1 ≤ max (discSize (caseCount cs)) (casesMaxAlign cs)
    have := casesMaxAlign_pos cs
    omega
theorem fieldsAlign_pos : ∀ fs : TyList, 1 ≤ fieldsAlign fs
  | .nil => Nat.le_refl 1
  | .cons t ts => by
    show 1 ≤ max (alignOf t) (fieldsAlign ts)
    have := fieldsAlign_pos ts
    omega
theorem casesMaxAlign_pos : ∀ cs : CaseList, 1 ≤ casesMaxAlign cs
  | .nil => Nat.le_refl 1
  | .cons c cs => by
    show 1 ≤ max (optAlign c) (casesMaxAlign cs)
    have := casesMaxAlign_pos cs
    omega
end

theorem discSize_pos (n : Nat) : 1 ≤ discSize n := by
  unfold discSize
  split
  · omega
  · split <;> omega

theorem fieldsEndOff_ge : ∀ (fs : TyList) (acc : Nat), acc ≤ fieldsEndOff fs acc
  | .nil, acc => Nat.le_refl acc
  | .cons t ts, acc => by
    show acc ≤ fieldsEndOff ts (alignUp acc (alignOf t) + byteSize t)
    have h1 := le_alignUp acc (alignOf t)
    have h2 := fieldsEndOff_ge ts (alignUp acc (alignOf t) + byteSize t)
    omega

theorem byteSize_record_ge (fs : TyList) : fieldsEndOff fs 0 ≤ byteSize (Ty.record fs) := by
  show fieldsEndOff fs 0 ≤ alignUp (fieldsEndOff fs 0) (fieldsAlign fs)
  exact le_alignUp _ _

theorem optSize_caseGet_le : ∀ (cs : CaseList) (d : Nat),
    optSize (caseGet cs d) ≤ casesMaxSize cs
  | .nil, d => by cases d <;> simp [caseGet, optSize, casesMaxSize]
  | .cons c cs, 0 => by
    show optSize c ≤ max (optSize c) (casesMaxSize cs)
    omega
  | .cons c cs, d + 1 => by
    show optSize (caseGet cs d) ≤ max (optSize c) (casesMaxSize cs)
    have := optSize_caseGet_le cs d
    omega

theorem payload_slot_le (cs : CaseList) (d : Nat) :
    payloadOff cs + optSize (caseGet cs d) ≤ byteSize (Ty.variant cs) := by
  show _ ≤ alignUp (alignUp (discSize (caseCount cs)) (casesMaxAlign cs) + casesMaxSize cs)
    (max (discSize (caseCount cs)) (casesMaxAlign cs))
  have h1 := optSize_caseGet_le cs d
  have h2 := le_alignUp (alignUp (discSize (caseCount cs)) (casesMaxAlign cs) + casesMaxSize cs)
    (max (discSize (caseCount cs)) (casesMaxAlign cs))
  unfold payloadOff
  omega

theorem discSize_le_byteSize (cs : CaseList) :
    discSize (caseCount cs) ≤ byteSize (Ty.variant cs) := by
  have h1 := le_alignUp (discSize (caseCount cs)) (casesMaxAlign cs)
  have h2 := payload_slot_le cs 0
  unfold payloadOff at h2
  omega

theorem payloadOff_ge_discSize (cs : CaseList) :
    discSize (caseCount cs) ≤ payloadOff cs := le_alignUp _ _

theorem liftCase_eq : ∀ (cs : CaseList) (d : Nat) (m : Mem) (msize off : Nat),
    d < caseCount cs → liftCase cs d m msize off = liftOpt (caseGet cs d) m msize off
  | .nil, d, _, _, _, h => by simp [caseCount] at h
  | .cons c cs, 0, m, msize, off, _ => rfl
  | .cons c cs, d + 1, m, msize, off, h => by
    show liftCase cs d m msize off = liftOpt (caseGet cs d) m msize off
    exact liftCase_eq cs d m msize off (by
      have : caseCount (CaseList.cons c cs) = caseCount cs + 1 := rfl
      omega)

theorem lenV_eq_zero (es : ValueList) (h : lenV es = 0) : es = ValueList.nil := by
  cases es with
  | nil => rfl
  | cons v vs => simp [lenV] at h

theorem pow256_eq (w : Nat) : 256 ^ w = 2 ^ (8 * w) := by
  rw [show (256 : Nat) = 2 ^ 8 from rfl, ← Nat.pow_mul]

theorem flags_pow_eq (k : Nat) : (2 : Nat) ^ (32 * k) = 256 ^ (4 * k) := by
  rw [pow256_eq]
  ring_nf

theorem int_emod_conv (i M : Int) (_hM : 0 < M) (h1 : -M ≤ i) (h2 : i < M) :
    i % M = if 0 ≤ i then i else i + M := by
  split
  · rename_i hi
    exact Int.emod_eq_of_lt hi h2
  · rename_i hi
    have step : (i + M * 1) % M = i % M := Int.add_mul_emod_self_left i M 1
    rw [mul_one] at step
    rw [← step]
    exact Int.emod_eq_of_lt (by omega) (by omega)

theorem twoPow_split (w : Nat) (hw : 0 < w) : 2 ^ (8 * w - 1) * 2 = (2 : Nat) ^ (8 * w) := by
  rw [← Nat.pow_succ]
  congr 1
  omega

theorem wireOfSint_lt (w : Nat) (i : Int) (hw : 0 < w)
    (h1 : -(2 ^ (8 * w - 1)) ≤ i) (h2 : i < 2 ^ (8 * w - 1)) :
    wireOfSint w i < 256 ^ w := by
  unfold wireOfSint
  rw [pow256_eq]
  have hsplit := twoPow_split w hw
  have hsplitI : ((2 : Int) ^ (8 * w - 1)) * 2 = 2 ^ (8 * w) := by
    exact_mod_cast congrArg (fun n : Nat => (n : Int)) hsplit
  have hpos : (0 : Int) < 2 ^ (8 * w) := by positivity
  rw [int_emod_conv i _ hpos (by omega) (by omega)]
  have hc : ((2 : Int) ^ (8 * w)) = ((2 ^ (8 * w) : Nat) : Int) := by push_cast; ring
  split <;> omega

theorem sintOfWire_wireOfSint (w : Nat) (i : Int) (hw : 0 < w)
    (h1 : -(2 ^ (8 * w - 1)) ≤ i) (h2 : i < 2 ^ (8 * w - 1)) :
    sintOfWire w (wireOfSint w i) = i := by
  unfold sintOfWire wireOfSint
  have hsplit := twoPow_split w hw
  have hsplitI : ((2 : Int) ^ (8 * w - 1)) * 2 = 2 ^ (8 * w) := by
    exact_mod_cast congrArg (fun n : Nat => (n : Int)) hsplit
  have hpos : (0 : Int) < 2 ^ (8 * w) := by positivity
  have hc : ((2 : Int) ^ (8 * w)) = ((2 ^ (8 * w) : Nat) : Int) := by push_cast; ring
  rw [int_emod_conv i _ hpos (by omega) (by omega)]
  rcases le_or_lt 0 i with hi | hi
  · have hinner : (if 0 ≤ i then i else i + 2 ^ (8 * w)) = i := if_pos hi
    rw [hinner]
    have hlt : i.toNat < 2 ^ (8 * w - 1) := by omega
    rw [if_pos hlt]
    omega
  · have hinner : (if 0 ≤ i then i else i + 2 ^ (8 * w)) = i + 2 ^ (8 * w) := if_neg (by omega)
    rw [hinner]
    have hge : ¬((i + 2 ^ (8 * w)).toNat < 2 ^ (8 * w - 1)) := by omega
    rw [if_neg hge]
    omega

/-! ### Frame properties of lowering

Lowering `v` at `off` from state `s` only writes inside the inline slot
`[off, off + byteSize t)` and the freshly allocated region
`[s.next, next')`; the allocation cursor never decreases. -/

theorem prim_frame (s : LowerState) (off w val : Nat) :
    s.next ≤ (LowerState.mk (writeLE s.mem off w val) s.next).next ∧
    ∀ a, a < s.next → (a < off ∨ off + w ≤ a) →
      (LowerState.mk (writeLE s.mem off w val) s.next).mem a = s.mem a :=
  ⟨Nat.le_refl _, fun a _ hor => writeLE_out _ _ _ _ _ hor⟩

theorem lowerLoopE_frame (f : Value → Nat → LowerState → LowerState) (stride : Nat)
    (hf : ∀ v addr s, s.next ≤ (f v addr s).next ∧
      ∀ a, a < s.next → (a < addr ∨ addr + stride ≤ a) → (f v addr s).mem a = s.mem a) :
    ∀ (es : ValueList) (addr : Nat) (s : LowerState),
      s.next ≤ (lowerLoopE f stride es addr s).next ∧
      ∀ a, a < s.next → (a < addr ∨ addr + lenV es * stride ≤ a) →
        (lowerLoopE f stride es addr s).mem a = s.mem a
  | .nil, addr, s => ⟨Nat.le_refl _, fun _ _ _ => rfl⟩
  | .cons v vs, addr, s => by
    obtain ⟨hm1, hp1⟩ := hf v addr s
    obtain ⟨hm2, hp2⟩ := lowerLoopE_frame f stride hf vs (addr + stride) (f v addr s)
    refine ⟨le_trans hm1 hm2, fun a ha hor => ?_⟩
    have hlen : lenV (ValueList.cons v vs) * stride = lenV vs * stride + stride := by
      show (lenV vs + 1) * stride = lenV vs * stride + stride
      ring
    show (lowerLoopE f stride vs (addr + stride) (f v addr s)).mem a = s.mem a
    rw [hp2 a (lt_of_lt_of_le ha hm1) (by omega)]
    exact hp1 a ha (by omega)

mutual
theorem lower_frame : ∀ (t : Ty) (v : Value) (off : Nat) (s : LowerState),
    s.next ≤ (lower t v off s).next ∧
    ∀ a, a < s.next → (a < off ∨ off + byteSize t ≤ a) → (lower t v off s).mem a = s.mem a
  | .bool, v, off, s => by simpa [lower, byteSize] using prim_frame s off 1 v.asNum
  | .u8, v, off, s => by simpa [lower, byteSize] using prim_frame s off 1 v.asNum
  | .u16, v, off, s => by simpa [lower, byteSize] using prim_frame s off 2 v.asNum
  | .u32, v, off, s => by simpa [lower, byteSize] using prim_frame s off 4 v.asNum
  | .u64, v, off, s => by simpa [lower, byteSize] using prim_frame s off 8 v.asNum
  | .s8, v, off, s => by
    simpa [lower, byteSize] using prim_frame s off 1 (wireOfSint 1 v.asInt)
  | .s16, v, off, s => by
    simpa [lower, byteSize] using prim_frame s off 2 (wireOfSint 2 v.asInt)
  | .s32, v, off, s => by
    simpa [lower, byteSize] using prim_frame s off 4 (wireOfSint 4 v.asInt)
  | .s64, v, off, s => by
    simpa [lower, byteSize] using prim_frame s off 8 (wireOfSint 8 v.asInt)
  | .char, v, off, s => by simpa [lower, byteSize] using prim_frame s off 4 v.asNum
  | .flags n, v, off, s => by
    simpa [lower, byteSize] using prim_frame s off (4 * flagsWords n) v.asNum
  | .own, v, off, s => by simpa [lower, byteSize] using prim_frame s off 4 v.asNum
  | .borrow, v, off, s => by simpa [lower, byteSize] using prim_frame s off 4 v.asNum
  | .wstring, v, off, s => by
    refine ⟨?_, fun a ha hor => ?_⟩
    · show s.next ≤ s.next + (utf8Encode v.asStr).length
      omega
    · have hor8 : a < off ∨ off + 8 ≤ a := by simpa [byteSize] using hor
      show (writeBytesL (writeLE (writeLE s.mem off 4 s.next) (off + 4) 4
          (utf8Encode v.asStr).length) s.next (utf8Encode v.asStr)) a = s.mem a
      rw [writeBytesL_out _ _ _ _ (Or.inl ha), writeLE_out _ _ _ _ _ (by omega),
        writeLE_out _ _ _ _ _ (by omega)]
  | .list t, v, off, s => by
    obtain ⟨hm, hp⟩ := lowerLoopE_frame (lower t) (byteSize t)
      (fun v1 a1 s1 => lower_frame t v1 a1 s1) v.asElems (alignUp s.next (alignOf t))
      ⟨writeLE (writeLE s.mem off 4 (alignUp s.next (alignOf t))) (off + 4) 4
        (lenV v.asElems), alignUp s.next (alignOf t) + lenV v.asElems * byteSize t⟩
    have hpa := le_alignUp s.next (alignOf t)
    have hc : (⟨writeLE (writeLE s.mem off 4 (alignUp s.next (alignOf t))) (off + 4) 4
        (lenV v.asElems), alignUp s.next (alignOf t) + lenV v.asElems * byteSize t⟩
        : LowerState).next = alignUp s.next (alignOf t) + lenV v.asElems * byteSize t := rfl
    rw [hc] at hm hp
    refine ⟨?_, fun a ha hor => ?_⟩
    · show s.next ≤ (lowerLoopE (lower t) (byteSize t) v.asElems (alignUp s.next (alignOf t))
        ⟨writeLE (writeLE s.mem off 4 (alignUp s.next (alignOf t))) (off + 4) 4
          (lenV v.asElems), alignUp s.next (alignOf t) + lenV v.asElems * byteSize t⟩).next
      omega
    · have hor8 : a < off ∨ off + 8 ≤ a := by simpa [byteSize] using hor
      show (lowerLoopE (lower t) (byteSize t) v.asElems (alignUp s.next (alignOf t))
        ⟨writeLE (writeLE s.mem off 4 (alignUp s.next (alignOf t))) (off + 4) 4
          (lenV v.asElems), alignUp s.next (alignOf t) + lenV v.asElems * byteSize t⟩).mem a
        = s.mem a
      rw [hp a (by omega) (Or.inl (by omega))]
      show (writeLE (writeLE s.mem off 4 (alignUp s.next (alignOf t))) (off + 4) 4
        (lenV v.asElems)) a = s.mem a
      rw [writeLE_out _ _ _ _ _ (by omega), writeLE_out _ _ _ _ _ (by omega)]
  | .record fs, v, off, s => by
    obtain ⟨hm, hp⟩ := lowerFields_frame fs v.asFields off 0 s
    refine ⟨hm, fun a ha hor => ?_⟩
    apply hp a ha
    have hge := byteSize_record_ge fs
    omega
  | .variant cs, v, off, s => by
    obtain ⟨hm, hp⟩ := lowerCase_frame cs v.asTag v.asPayload (off + payloadOff cs)
      ⟨writeLE s.mem off (discSize (caseCount cs)) v.asTag, s.next⟩
    refine ⟨hm, fun a ha hor => ?_⟩
    have h1 := payload_slot_le cs v.asTag
    have h2 := discSize_le_byteSize cs
    show (lowerCase cs v.asTag v.asPayload (off + payloadOff cs)
      ⟨writeLE s.mem off (discSize (caseCount cs)) v.asTag, s.next⟩).mem a = s.mem a
    rw [hp a ha (by omega)]
    exact writeLE_out _ _ _ _ _ (by omega)
theorem lowerFields_frame : ∀ (fs : TyList) (vs : ValueList) (off acc : Nat) (s : LowerState),
    s.next ≤ (lowerFields fs vs off acc s).next ∧
    ∀ a, a < s.next → (a < off + acc ∨ off + fieldsEndOff fs acc ≤ a) →
      (lowerFields fs vs off acc s).mem a = s.mem a
  | .nil, vs, off, acc, s => ⟨Nat.le_refl _, fun _ _ _ => rfl⟩
  | .cons t ts, vs, off, acc, s => by
    obtain ⟨hm1, hp1⟩ := lower_frame t vs.headV (off + alignUp acc (alignOf t)) s
    obtain ⟨hm2, hp2⟩ := lowerFields_frame ts vs.tailV off (alignUp acc (alignOf t) + byteSize t)
      (lower t vs.headV (off + alignUp acc (alignOf t)) s)
    refine ⟨le_trans hm1 hm2, fun a ha hor => ?_⟩
    have hle := le_alignUp acc (alignOf t)
    have hge := fieldsEndOff_ge ts (alignUp acc (alignOf t) + byteSize t)
    have hEnd : fieldsEndOff (TyList.cons t ts) acc
        = fieldsEndOff ts (alignUp acc (alignOf t) + byteSize t) := rfl
    rw [hEnd] at hor
    show (lowerFields ts vs.tailV off (alignUp acc (alignOf t) + byteSize t)
      (lower t vs.headV (off + alignUp acc (alignOf t)) s)).mem a = s.mem a
    rw [hp2 a (lt_of_lt_of_le ha hm1) (by omega)]
    exact hp1 a ha (by omega)
theorem lowerCase_frame : ∀ (cs : CaseList) (d : Nat) (pl : OptValue) (off : Nat)
    (s : LowerState),
    s.next ≤ (lowerCase cs d pl off s).next ∧
    ∀ a, a < s.next → (a < off ∨ off + optSize (caseGet cs d) ≤ a) →
      (lowerCase cs d pl off s).mem a = s.mem a
  | .nil, d, pl, off, s => ⟨Nat.le_refl _, fun _ _ _ => rfl⟩
  | .cons c cs, 0, pl, off, s => lowerOpt_frame c pl off s
  | .cons c cs, d + 1, pl, off, s => lowerCase_frame cs d pl off s
theorem lowerOpt_frame : ∀ (c : OptTy) (pl : OptValue) (off : Nat) (s : LowerState),
    s.next ≤ (lowerOpt c pl off s).next ∧
    ∀ a, a < s.next → (a < off ∨ off + optSize c ≤ a) → (lowerOpt c pl off s).mem a = s.mem a
  | .noneT, pl, off, s => ⟨Nat.le_refl _, fun _ _ _ => rfl⟩
  | .someT t, pl, off, s => lower_frame t pl.getV off s
end

/-! ### Round trip: lifting a lowered value gives the value back -/

theorem lowerCase_eq : ∀ (cs : CaseList) (d : Nat) (pl : OptValue) (off : Nat) (s : LowerState),
    d < caseCount cs → lowerCase cs d pl off s = lowerOpt (caseGet cs d) pl off s
  | .nil, d, _, _, _, h => by simp [caseCount] at h
  | .cons c cs, 0, pl, off, s, _ => rfl
  | .cons c cs, d + 1, pl, off, s, h => by
    show lowerCase cs d pl off s = lowerOpt (caseGet cs d) pl off s
    exact lowerCase_eq cs d pl off s (by
      have : caseCount (CaseList.cons c cs) = caseCount cs + 1 := rfl
      omega)

theorem tag_lt_pow (n d : Nat) (h1 : d < n) (h2 : d < 0x100000000) :
    d < 256 ^ discSize n := by
  unfold discSize
  split
  · have : (256 : Nat) ^ 1 = 0x100 := by norm_num
    omega
  · split
    · have : (256 : Nat) ^ 2 = 0x10000 := by norm_num
      omega
    · have : (256 : Nat) ^ 4 = 0x100000000 := by norm_num
      omega

theorem readback_prim (s : LowerState) (m2 : Mem) (off w val : Nat)
    (hval : val < 256 ^ w)
    (hag : ∀ a, off ≤ a → a < off + w → m2 a = writeLE s.mem off w val a) :
    readLE m2 off w = val := by
  rw [readLE_ext m2 (writeLE s.mem off w val) off w hag]
  exact readLE_writeLE s.mem off w val hval

theorem liftLoopBack (f : Nat → Except CmError Value) (g : Value → Nat → LowerState → LowerState)
    (stride : Nat) (m2 : Mem) (msize : Nat) (dom : Value → Bool) (edom : ValueList → Bool)
    (hg : ∀ v addr s, s.next ≤ (g v addr s).next ∧
      ∀ a, a < s.next → (a < addr ∨ addr + stride ≤ a) → (g v addr s).mem a = s.mem a)
    (hsplit : ∀ v vs, edom (ValueList.cons v vs) = true → dom v = true ∧ edom vs = true)
    (helem : ∀ (v : Value) (addr : Nat) (s : LowerState), dom v = true →
      addr + stride ≤ s.next →
      (g v addr s).next ≤ msize → (g v addr s).next < 0x100000000 →
      (∀ a, (addr ≤ a ∧ a < addr + stride) ∨ (s.next ≤ a ∧ a < (g v addr s).next) →
        m2 a = (g v addr s).mem a) →
      f addr = Except.ok v) :
    ∀ (es : ValueList) (addr : Nat) (s : LowerState),
      edom es = true →
      addr + lenV es * stride ≤ s.next →
      (lowerLoopE g stride es addr s).next ≤ msize →
      (lowerLoopE g stride es addr s).next < 0x100000000 →
      (∀ a, (addr ≤ a ∧ a < addr + lenV es * stride) ∨
          (s.next ≤ a ∧ a < (lowerLoopE g stride es addr s).next) →
        m2 a = (lowerLoopE g stride es addr s).mem a) →
      liftLoop f addr stride (lenV es) = Except.ok es
  | .nil, addr, s, _, _, _, _, _ => rfl
  | .cons v vs, addr, s, hdom, hslot, hms, hfit, hag => by
    obtain ⟨hdv, hdvs⟩ := hsplit v vs hdom
    obtain ⟨hm1, hp1⟩ := hg v addr s
    obtain ⟨hm2, hp2⟩ := lowerLoopE_frame g stride hg vs (addr + stride) (g v addr s)
    have hlen : lenV (ValueList.cons v vs) * stride = lenV vs * stride + stride := by
      show (lenV vs + 1) * stride = lenV vs * stride + stride
      ring
    have hS : lowerLoopE g stride (ValueList.cons v vs) addr s
        = lowerLoopE g stride vs (addr + stride) (g v addr s) := rfl
    rw [hS] at hms hfit hag
    have hslot' : addr + lenV (ValueList.cons v vs) * stride ≤ s.next := hslot
    have hhead : f addr = Except.ok v := by
      apply helem v addr s hdv (by omega) (le_trans hm2 hms) (lt_of_le_of_lt hm2 hfit)
      intro a haa
      have haIn : (addr ≤ a ∧ a < addr + lenV (ValueList.cons v vs) * stride) ∨
          (s.next ≤ a ∧ a < (lowerLoopE g stride vs (addr + stride) (g v addr s)).next) := by
        rcases haa with h | h
        · left; omega
        · right; omega
      rw [hag a haIn]
      rcases haa with h | h
      · exact hp2 a (by omega) (by omega)
      · exact hp2 a (by omega) (by omega)
    have htail : liftLoop f (addr + stride) stride (lenV vs) = Except.ok vs := by
      apply liftLoopBack f g stride m2 msize dom edom hg hsplit helem vs (addr + stride)
        (g v addr s) hdvs (by omega) hms hfit
      intro a haa
      apply hag a
      rcases haa with h | h
      · left; omega
      · right; omega
    show liftLoop f addr stride (lenV vs + 1) = Except.ok (ValueList.cons v vs)
    rw [show liftLoop f addr stride (lenV vs + 1)
      = (do
          let v1 ← f addr
          let rest ← liftLoop f (addr + stride) stride (lenV vs)
          Except.ok (ValueList.cons v1 rest)) from rfl]
    rw [hhead, htail]
    rfl

theorem bindOk {α β : Type} (x : α) (f : α → Except CmError β) :
    Except.bind (Except.ok x) f = f x := rfl

theorem pow256_4 : (256 : Nat) ^ 4 = 0x100000000 := by norm_num

mutual
theorem liftBack : ∀ (t : Ty) (v : Value) (off : Nat) (s : LowerState) (msize : Nat) (m2 : Mem),
    inDomain t v = true →
    off + byteSize t ≤ s.next →
    (lower t v off s).next ≤ msize →
    (lower t v off s).next < 0x100000000 →
    (∀ a, (off ≤ a ∧ a < off + byteSize t) ∨ (s.next ≤ a ∧ a < (lower t v off s).next) →
      m2 a = (lower t v off s).mem a) →
    lift t m2 msize off = Except.ok v
  | .bool, v, off, s, msize, m2, hdom, hslot, hms, hfit, hag => by
    cases v <;> simp [inDomain] at hdom
    rename_i b
    have hnext := (lower_frame Ty.bool (Value.num b) off s).1
    have hslot' : off + 1 ≤ s.next := hslot
    have hr : readLE m2 off 1 = b :=
      readback_prim s m2 off 1 b (by norm_num; omega)
        (fun a h1 h2 => hag a (Or.inl ⟨h1, h2⟩))
    rw [show lift Ty.bool m2 msize off
        = (readNum m2 msize off 1).map (fun b1 => Value.num (min b1 1)) from rfl,
      show readNum m2 msize off 1 = if off + 1 ≤ msize then Except.ok (readLE m2 off 1)
        else Except.error CmError.OutOfBounds from rfl,
      if_pos (by omega), hr]
    simp only [Except.map]
    rw [show min b 1 = b by omega]
  | .u8, v, off, s, msize, m2, hdom, hslot, hms, hfit, hag => by
    cases v <;> simp [inDomain] at hdom
    rename_i n
    have hnext := (lower_frame Ty.u8 (Value.num n) off s).1
    have hslot' : off + 1 ≤ s.next := hslot
    have hr : readLE m2 off 1 = n :=
      readback_prim s m2 off 1 n (by norm_num; omega)
        (fun a h1 h2 => hag a (Or.inl ⟨h1, h2⟩))
    rw [show lift Ty.u8 m2 msize off = (readNum m2 msize off 1).map Value.num from rfl,
      show readNum m2 msize off 1 = if off + 1 ≤ msize then Except.ok (readLE m2 off 1)
        else Except.error CmError.OutOfBounds from rfl,
      if_pos (by omega), hr]
    rfl
  | .u16, v, off, s, msize, m2, hdom, hslot, hms, hfit, hag => by
    cases v <;> simp [inDomain] at hdom
    rename_i n
    have hnext := (lower_frame Ty.u16 (Value.num n) off s).1
    have hslot' : off + 2 ≤ s.next := hslot
    have hr : readLE m2 off 2 = n :=
      readback_prim s m2 off 2 n (by norm_num; omega)
        (fun a h1 h2 => hag a (Or.inl ⟨h1, h2⟩))
    rw [show lift Ty.u16 m2 msize off = (readNum m2 msize off 2).map Value.num from rfl,
      show readNum m2 msize off 2 = if off + 2 ≤ msize then Except.ok (readLE m2 off 2)
        else Except.error CmError.OutOfBounds from rfl,
      if_pos (by omega), hr]
    rfl
  | .u32, v, off, s, msize, m2, hdom, hslot, hms, hfit, hag => by
    cases v <;> simp [inDomain] at hdom
    rename_i n
    have hnext := (lower_frame Ty.u32 (Value.num n) off s).1
    have hslot' : off + 4 ≤ s.next := hslot
    have hr : readLE m2 off 4 = n :=
      readback_prim s m2 off 4 n (by norm_num; omega)
        (fun a h1 h2 => hag a (Or.inl ⟨h1, h2⟩))
    rw [show lift Ty.u32 m2 msize off = (readNum m2 msize off 4).map Value.num from rfl,
      show readNum m2 msize off 4 = if off + 4 ≤ msize then Except.ok (readLE m2 off 4)
        else Except.error CmError.OutOfBounds from rfl,
      if_pos (by omega), hr]
    rfl
  | .u64, v, off, s, msize, m2, hdom, hslot, hms, hfit, hag => by
    cases v <;> simp [inDomain] at hdom
    rename_i n
    have hnext := (lower_frame Ty.u64 (Value.num n) off s).1
    have hslot' : off + 8 ≤ s.next := hslot
    have hr : readLE m2 off 8 = n :=
      readback_prim s m2 off 8 n (by norm_num; omega)
        (fun a h1 h2 => hag a (Or.inl ⟨h1, h2⟩))
    rw [show lift Ty.u64 m2 msize off = (readNum m2 msize off 8).map Value.num from rfl,
      show readNum m2 msize off 8 = if off + 8 ≤ msize then Except.ok (readLE m2 off 8)
        else Except.error CmError.OutOfBounds from rfl,
      if_pos (by omega), hr]
    rfl
  | .s8, v, off, s, msize, m2, hdom, hslot, hms, hfit, hag => by
    cases v <;> simp [inDomain] at hdom
    rename_i i
    have hnext := (lower_frame Ty.s8 (Value.sint i) off s).1
    have hslot' : off + 1 ≤ s.next := hslot
    have hpow : ((2 : Int) ^ (8 * 1 - 1)) = 0x80 := by norm_num
    have hb1 : -(2 ^ (8 * 1 - 1)) ≤ i := by rw [hpow]; omega
    have hb2 : i < 2 ^ (8 * 1 - 1) := by rw [hpow]; omega
    have hr : readLE m2 off 1 = wireOfSint 1 i :=
      readback_prim s m2 off 1 (wireOfSint 1 i) (wireOfSint_lt 1 i (by omega) hb1 hb2)
        (fun a h1 h2 => hag a (Or.inl ⟨h1, h2⟩))
    rw [show lift Ty.s8 m2 msize off
        = (readNum m2 msize off 1).map (fun u => Value.sint (sintOfWire 1 u)) from rfl,
      show readNum m2 msize off 1 = if off + 1 ≤ msize then Except.ok (readLE m2 off 1)
        else Except.error CmError.OutOfBounds from rfl,
      if_pos (by omega)]
    simp only [Except.map]
    rw [hr, sintOfWire_wireOfSint 1 i (by omega) hb1 hb2]
  | .s16, v, off, s, msize, m2, hdom, hslot, hms, hfit, hag => by
    cases v <;> simp [inDomain] at hdom
    rename_i i
    have hnext := (lower_frame Ty.s16 (Value.sint i) off s).1
    have hslot' : off + 2 ≤ s.next := hslot
    have hpow : ((2 : Int) ^ (8 * 2 - 1)) = 0x8000 := by norm_num
    have hb1 : -(2 ^ (8 * 2 - 1)) ≤ i := by rw [hpow]; omega
    have hb2 : i < 2 ^ (8 * 2 - 1) := by rw [hpow]; omega
    have hr : readLE m2 off 2 = wireOfSint 2 i :=
      readback_prim s m2 off 2 (wireOfSint 2 i) (wireOfSint_lt 2 i (by omega) hb1 hb2)
        (fun a h1 h2 => hag a (Or.inl ⟨h1, h2⟩))
    rw [show lift Ty.s16 m2 msize off
        = (readNum m2 msize off 2).map (fun u => Value.sint (sintOfWire 2 u)) from rfl,
      show readNum m2 msize off 2 = if off + 2 ≤ msize then Except.ok (readLE m2 off 2)
        else Except.error CmError.OutOfBounds from rfl,
      if_pos (by omega)]
    simp only [Except.map]
    rw [hr, sintOfWire_wireOfSint 2 i (by omega) hb1 hb2]
  | .s32, v, off, s, msize, m2, hdom, hslot, hms, hfit, hag => by
    cases v <;> simp [inDomain] at hdom
    rename_i i
    have hnext := (lower_frame Ty.s32 (Value.sint i) off s).1
    have hslot' : off + 4 ≤ s.next := hslot
    have hpow : ((2 : Int) ^ (8 * 4 - 1)) = 0x80000000 := by norm_num
    have hb1 : -(2 ^ (8 * 4 - 1)) ≤ i := by rw [hpow]; omega
    have hb2 : i < 2 ^ (8 * 4 - 1) := by rw [hpow]; omega
    have hr : readLE m2 off 4 = wireOfSint 4 i :=
      readback_prim s m2 off 4 (wireOfSint 4 i) (wireOfSint_lt 4 i (by omega) hb1 hb2)
        (fun a h1 h2 => hag a (Or.inl ⟨h1, h2⟩))
    rw [show lift Ty.s32 m2 msize off
        = (readNum m2 msize off 4).map (fun u => Value.sint (sintOfWire 4 u)) from rfl,
      show readNum m2 msize off 4 = if off + 4 ≤ msize then Except.ok (readLE m2 off 4)
        else Except.error CmError.OutOfBounds from rfl,
      if_pos (by omega)]
    simp only [Except.map]
    rw [hr, sintOfWire_wireOfSint 4 i (by omega) hb1 hb2]
  | .s64, v, off, s, msize, m2, hdom, hslot, hms, hfit, hag => by
    cases v <;> simp [inDomain] at hdom
    rename_i i
    have hnext := (lower_frame Ty.s64 (Value.sint i) off s).1
    have hslot' : off + 8 ≤ s.next := hslot
    have hpow : ((2 : Int) ^ (8 * 8 - 1)) = 0x8000000000000000 := by norm_num
    have hb1 : -(2 ^ (8 * 8 - 1)) ≤ i := by rw [hpow]; omega
    have hb2 : i < 2 ^ (8 * 8 - 1) := by rw [hpow]; omega
    have hr : readLE m2 off 8 = wireOfSint 8 i :=
      readback_prim s m2 off 8 (wireOfSint 8 i) (wireOfSint_lt 8 i (by omega) hb1 hb2)
        (fun a h1 h2 => hag a (Or.inl ⟨h1, h2⟩))
    rw [show lift Ty.s64 m2 msize off
        = (readNum m2 msize off 8).map (fun u => Value.sint (sintOfWire 8 u)) from rfl,
      show readNum m2 msize off 8 = if off + 8 ≤ msize then Except.ok (readLE m2 off 8)
        else Except.error CmError.OutOfBounds from rfl,
      if_pos (by omega)]
    simp only [Except.map]
    rw [hr, sintOfWire_wireOfSint 8 i (by omega) hb1 hb2]
  | .char, v, off, s, msize, m2, hdom, hslot, hms, hfit, hag => by
    cases v <;> simp [inDomain] at hdom
    rename_i c
    have hval := hdom
    rw [validScalar_iff] at hval
    have hnext := (lower_frame Ty.char (Value.num c) off s).1
    have hslot' : off + 4 ≤ s.next := hslot
    have hr : readLE m2 off 4 = c :=
      readback_prim s m2 off 4 c (by norm_num; omega)
        (fun a h1 h2 => hag a (Or.inl ⟨h1, h2⟩))
    rw [show lift Ty.char m2 msize off
        = Except.bind (readNum m2 msize off 4) (fun c1 =>
            if validScalar c1 then Except.ok (Value.num c1)
            else Except.error CmError.EncodingError) from rfl,
      show readNum m2 msize off 4 = if off + 4 ≤ msize then Except.ok (readLE m2 off 4)
        else Except.error CmError.OutOfBounds from rfl,
      if_pos (by omega), hr, bindOk, if_pos hdom]
  | .flags n, v, off, s, msize, m2, hdom, hslot, hms, hfit, hag => by
    cases v <;> simp [inDomain] at hdom
    rename_i b
    have hnext := (lower_frame (Ty.flags n) (Value.num b) off s).1
    have hslot' : off + 4 * flagsWords n ≤ s.next := hslot
    have hr : readLE m2 off (4 * flagsWords n) = b :=
      readback_prim s m2 off (4 * flagsWords n) b (by rw [← flags_pow_eq]; omega)
        (fun a h1 h2 => hag a (Or.inl ⟨h1, h2⟩))
    rw [show lift (Ty.flags n) m2 msize off
        = (readNum m2 msize off (4 * flagsWords n)).map Value.num from rfl,
      show readNum m2 msize off (4 * flagsWords n)
        = if off + 4 * flagsWords n ≤ msize then Except.ok (readLE m2 off (4 * flagsWords n))
          else Except.error CmError.OutOfBounds from rfl,
      if_pos (by omega), hr]
    rfl
  | .own, v, off, s, msize, m2, hdom, hslot, hms, hfit, hag => by
    cases v <;> simp [inDomain] at hdom
    rename_i n
    have hnext := (lower_frame Ty.own (Value.num n) off s).1
    have hslot' : off + 4 ≤ s.next := hslot
    have hr : readLE m2 off 4 = n :=
      readback_prim s m2 off 4 n (by norm_num; omega)
        (fun a h1 h2 => hag a (Or.inl ⟨h1, h2⟩))
    rw [show lift Ty.own m2 msize off = (readNum m2 msize off 4).map Value.num from rfl,
      show readNum m2 msize off 4 = if off + 4 ≤ msize then Except.ok (readLE m2 off 4)
        else Except.error CmError.OutOfBounds from rfl,
      if_pos (by omega), hr]
    rfl
  | .borrow, v, off, s, msize, m2, hdom, hslot, hms, hfit, hag => by
    cases v <;> simp [inDomain] at hdom
    rename_i n
    have hnext := (lower_frame Ty.borrow (Value.num n) off s).1
    have hslot' : off + 4 ≤ s.next := hslot
    have hr : readLE m2 off 4 = n :=
      readback_prim s m2 off 4 n (by norm_num; omega)
        (fun a h1 h2 => hag a (Or.inl ⟨h1, h2⟩))
    rw [show lift Ty.borrow m2 msize off = (readNum m2 msize off 4).map Value.num from rfl,
      show readNum m2 msize off 4 = if off + 4 ≤ msize then Except.ok (readLE m2 off 4)
        else Except.error CmError.OutOfBounds from rfl,
      if_pos (by omega), hr]
    rfl
  | .wstring, v, off, s, msize, m2, hdom, hslot, hms, hfit, hag => by
    cases v <;> simp [inDomain] at hdom
    rename_i sc
    have hval : ∀ c ∈ sc, validScalar c = true := by simpa [List.all_eq_true] using hdom
    have hslot' : off + 8 ≤ s.next := hslot
    have hms' : s.next + (utf8Encode sc).length ≤ msize := hms
    have hfit' : s.next + (utf8Encode sc).length < 0x100000000 := hfit
    have hag' : ∀ a, (off ≤ a ∧ a < off + 8) ∨
        (s.next ≤ a ∧ a < s.next + (utf8Encode sc).length) →
        m2 a = (writeBytesL (writeLE (writeLE s.mem off 4 s.next) (off + 4) 4
          (utf8Encode sc).length) s.next (utf8Encode sc)) a := hag
    have hrp : readLE m2 off 4 = s.next := by
      rw [readLE_ext m2 (writeLE (writeLE s.mem off 4 s.next) (off + 4) 4
        (utf8Encode sc).length) off 4 (fun a h1 h2 => by
          rw [hag' a (Or.inl ⟨h1, by omega⟩)]
          exact writeBytesL_out _ _ _ _ (Or.inl (by omega))),
        readLE_ext _ (writeLE s.mem off 4 s.next) off 4 (fun a h1 h2 =>
          writeLE_out _ _ _ _ _ (by omega))]
      exact readLE_writeLE s.mem off 4 s.next (by rw [pow256_4]; omega)
    have hrl : readLE m2 (off + 4) 4 = (utf8Encode sc).length := by
      rw [readLE_ext m2 (writeLE (writeLE s.mem off 4 s.next) (off + 4) 4
        (utf8Encode sc).length) (off + 4) 4 (fun a h1 h2 => by
          rw [hag' a (Or.inl ⟨by omega, by omega⟩)]
          exact writeBytesL_out _ _ _ _ (Or.inl (by omega)))]
      exact readLE_writeLE _ (off + 4) 4 (utf8Encode sc).length (by rw [pow256_4]; omega)
    have hbytes : readBytesL m2 s.next (utf8Encode sc).length = utf8Encode sc := by
      rw [readBytesL_ext m2 (writeBytesL (writeLE (writeLE s.mem off 4 s.next) (off + 4) 4
        (utf8Encode sc).length) s.next (utf8Encode sc)) s.next (utf8Encode sc).length
        (fun a h1 h2 => hag' a (Or.inr ⟨h1, h2⟩))]
      exact readBytesL_writeBytesL _ s.next (utf8Encode sc) (utf8Encode_lt sc hval)
    rw [show lift Ty.wstring m2 msize off
        = Except.bind (readNum m2 msize off 4) (fun p =>
            Except.bind (readNum m2 msize (off + 4) 4) (fun len =>
              if p + len ≤ msize then
                match utf8Decode (readBytesL m2 p len) with
                | Option.some s1 => Except.ok (Value.str s1)
                | Option.none => Except.error CmError.EncodingError
              else Except.error CmError.OutOfBounds)) from rfl,
      show readNum m2 msize off 4 = if off + 4 ≤ msize then Except.ok (readLE m2 off 4)
        else Except.error CmError.OutOfBounds from rfl,
      if_pos (by omega), hrp, bindOk,
      show readNum m2 msize (off + 4) 4
        = if off + 4 + 4 ≤ msize then Except.ok (readLE m2 (off + 4) 4)
          else Except.error CmError.OutOfBounds from rfl,
      if_pos (by omega), hrl, bindOk, if_pos (by omega : s.next + (utf8Encode sc).length ≤ msize),
      hbytes, utf8Decode_utf8Encode sc hval]
  | .list t, v, off, s, msize, m2, hdom, hslot, hms, hfit, hag => by
    cases v <;> simp [inDomain] at hdom
    rename_i es
    obtain ⟨hceil, hedom⟩ := hdom
    have hslot' : off + 8 ≤ s.next := hslot
    have hpa := le_alignUp s.next (alignOf t)
    obtain ⟨hm2L, hp2⟩ := lowerLoopE_frame (lower t) (byteSize t)
      (fun v1 a1 s1 => lower_frame t v1 a1 s1) es (alignUp s.next (alignOf t))
      ⟨writeLE (writeLE s.mem off 4 (alignUp s.next (alignOf t))) (off + 4) 4
        (lenV es), alignUp s.next (alignOf t) + lenV es * byteSize t⟩
    have hc : (⟨writeLE (writeLE s.mem off 4 (alignUp s.next (alignOf t))) (off + 4) 4
        (lenV es), alignUp s.next (alignOf t) + lenV es * byteSize t⟩
        : LowerState).next = alignUp s.next (alignOf t) + lenV es * byteSize t := rfl
    rw [hc] at hm2L hp2
    have hms' : (lowerLoopE (lower t) (byteSize t) es (alignUp s.next (alignOf t))
        ⟨writeLE (writeLE s.mem off 4 (alignUp s.next (alignOf t))) (off + 4) 4
          (lenV es), alignUp s.next (alignOf t) + lenV es * byteSize t⟩).next ≤ msize := hms
    have hfit' : (lowerLoopE (lower t) (byteSize t) es (alignUp s.next (alignOf t))
        ⟨writeLE (writeLE s.mem off 4 (alignUp s.next (alignOf t))) (off + 4) 4
          (lenV es), alignUp s.next (alignOf t) + lenV es * byteSize t⟩).next
        < 0x100000000 := hfit
    have hag' : ∀ a, (off ≤ a ∧ a < off + 8) ∨ (s.next ≤ a ∧
        a < (lowerLoopE (lower t) (byteSize t) es (alignUp s.next (alignOf t))
          ⟨writeLE (writeLE s.mem off 4 (alignUp s.next (alignOf t))) (off + 4) 4
            (lenV es), alignUp s.next (alignOf t) + lenV es * byteSize t⟩).next) →
        m2 a = (lowerLoopE (lower t) (byteSize t) es (alignUp s.next (alignOf t))
          ⟨writeLE (writeLE s.mem off 4 (alignUp s.next (alignOf t))) (off + 4) 4
            (lenV es), alignUp s.next (alignOf t) + lenV es * byteSize t⟩).mem a := hag
    have hinner : ∀ a, off ≤ a → a < off + 8 →
        m2 a = (writeLE (writeLE s.mem off 4 (alignUp s.next (alignOf t))) (off + 4) 4
          (lenV es)) a := by
      intro a h1 h2
      rw [hag' a (Or.inl ⟨h1, h2⟩)]
      exact hp2 a (by omega) (Or.inl (by omega))
    have hrp : readLE m2 off 4 = alignUp s.next (alignOf t) := by
      rw [readLE_ext m2 (writeLE (writeLE s.mem off 4 (alignUp s.next (alignOf t))) (off + 4) 4
          (lenV es)) off 4 (fun a h1 h2 => hinner a h1 (by omega)),
        readLE_ext _ (writeLE s.mem off 4 (alignUp s.next (alignOf t))) off 4
          (fun a h1 h2 => writeLE_out _ _ _ _ _ (by omega))]
      exact readLE_writeLE s.mem off 4 _ (by rw [pow256_4]; omega)
    have hrl : readLE m2 (off + 4) 4 = lenV es := by
      rw [readLE_ext m2 (writeLE (writeLE s.mem off 4 (alignUp s.next (alignOf t))) (off + 4) 4
          (lenV es)) (off + 4) 4 (fun a h1 h2 => hinner a (by omega) (by omega))]
      exact readLE_writeLE _ (off + 4) 4 (lenV es) (by rw [pow256_4]; unfold listCeiling at hceil; omega)
    have hloop : liftLoop (lift t m2 msize) (alignUp s.next (alignOf t)) (byteSize t) (lenV es)
        = Except.ok es := by
      apply liftLoopBack (lift t m2 msize) (lower t) (byteSize t) m2 msize
        (inDomain t) (elemsInDomain t)
        (fun v1 a1 s1 => lower_frame t v1 a1 s1)
        (fun v1 vs1 h1 => by simpa [elemsInDomain, Bool.and_eq_true] using h1)
        (fun v1 addr1 s1 hd1 hs1 hm1 hf1 hagr1 =>
          liftBack t v1 addr1 s1 msize m2 hd1 hs1 hm1 hf1
            (fun a haa => hagr1 a haa))
        es (alignUp s.next (alignOf t))
        ⟨writeLE (writeLE s.mem off 4 (alignUp s.next (alignOf t))) (off + 4) 4
          (lenV es), alignUp s.next (alignOf t) + lenV es * byteSize t⟩
        hedom hc.ge hms' hfit'
      intro a haa
      apply hag' a
      right
      rcases haa with h | h
      · exact ⟨by omega, by omega⟩
      · rw [hc] at h
        exact ⟨by omega, h.2⟩
    rw [show lift (Ty.list t) m2 msize off
        = Except.bind (readNum m2 msize off 4) (fun p =>
            Except.bind (readNum m2 msize (off + 4) 4) (fun len =>
              if len ≤ listCeiling ∧ p + len * byteSize t ≤ msize then
                (liftLoop (lift t m2 msize) p (byteSize t) len).map Value.list
              else Except.error CmError.OutOfBounds)) from rfl,
      show readNum m2 msize off 4 = if off + 4 ≤ msize then Except.ok (readLE m2 off 4)
        else Except.error CmError.OutOfBounds from rfl,
      if_pos (by omega), hrp, bindOk,
      show readNum m2 msize (off + 4) 4
        = if off + 4 + 4 ≤ msize then Except.ok (readLE m2 (off + 4) 4)
          else Except.error CmError.OutOfBounds from rfl,
      if_pos (by omega), hrl, bindOk,
      if_pos (⟨hceil, by omega⟩ : lenV es ≤ listCeiling
        ∧ alignUp s.next (alignOf t) + lenV es * byteSize t ≤ msize),
      hloop]
    rfl
  | .record fs, v, off, s, msize, m2, hdom, hslot, hms, hfit, hag => by
    cases v <;> simp [inDomain] at hdom
    rename_i vs
    have hge := byteSize_record_ge fs
    have hfields : liftFields fs m2 msize off 0 = Except.ok vs := by
      apply liftFieldsBack fs vs off 0 s msize m2 hdom (by omega) hms hfit
      intro a haa
      apply hag a
      rcases haa with h | h
      · left
        exact ⟨by omega, by omega⟩
      · right
        exact h
    rw [show lift (Ty.record fs) m2 msize off
        = (liftFields fs m2 msize off 0).map Value.record from rfl, hfields]
    rfl
  | .variant cs, v, off, s, msize, m2, hdom, hslot, hms, hfit, hag => by
    cases v <;> simp [inDomain] at hdom
    rename_i tag pl
    obtain ⟨⟨htag, htag32⟩, hopt⟩ := hdom
    have hdsz := discSize_le_byteSize cs
    have hpay := payload_slot_le cs tag
    have hpge := payloadOff_ge_discSize cs
    have hms' : (lowerCase cs tag pl (off + payloadOff cs)
        ⟨writeLE s.mem off (discSize (caseCount cs)) tag, s.next⟩).next ≤ msize := hms
    have hfit' : (lowerCase cs tag pl (off + payloadOff cs)
        ⟨writeLE s.mem off (discSize (caseCount cs)) tag, s.next⟩).next < 0x100000000 := hfit
    have hag' : ∀ a, (off ≤ a ∧ a < off + byteSize (Ty.variant cs)) ∨
        (s.next ≤ a ∧ a < (lowerCase cs tag pl (off + payloadOff cs)
          ⟨writeLE s.mem off (discSize (caseCount cs)) tag, s.next⟩).next) →
        m2 a = (lowerCase cs tag pl (off + payloadOff cs)
          ⟨writeLE s.mem off (discSize (caseCount cs)) tag, s.next⟩).mem a := hag
    obtain ⟨hmO, hpO⟩ := lowerCase_frame cs tag pl (off + payloadOff cs)
      ⟨writeLE s.mem off (discSize (caseCount cs)) tag, s.next⟩
    have hproj : (⟨writeLE s.mem off (discSize (caseCount cs)) tag, s.next⟩
        : LowerState).next = s.next := rfl
    rw [hproj] at hmO hpO
    have hrd : readLE m2 off (discSize (caseCount cs)) = tag := by
      rw [readLE_ext m2 (writeLE s.mem off (discSize (caseCount cs)) tag) off
        (discSize (caseCount cs)) (fun a h1 h2 => by
          rw [hag' a (Or.inl ⟨h1, by omega⟩)]
          exact hpO a (by omega) (Or.inl (by omega)))]
      exact readLE_writeLE s.mem off _ tag (tag_lt_pow (caseCount cs) tag htag htag32)
    have hcase : liftCase cs tag m2 msize (off + payloadOff cs) = Except.ok pl := by
      apply liftCaseBack cs tag pl (off + payloadOff cs)
        ⟨writeLE s.mem off (discSize (caseCount cs)) tag, s.next⟩ msize m2 htag hopt
        (by show off + payloadOff cs + optSize (caseGet cs tag) ≤ s.next; omega) hms' hfit'
      intro a haa
      apply hag' a
      rcases haa with h | h
      · left
        exact ⟨by omega, by omega⟩
      · right
        exact ⟨by rw [hproj] at h; exact h.1, h.2⟩
    rw [show lift (Ty.variant cs) m2 msize off
        = Except.bind (readNum m2 msize off (discSize (caseCount cs))) (fun d =>
            if d < caseCount cs then
              (liftCase cs d m2 msize (off + payloadOff cs)).map (Value.variant d)
            else Except.error CmError.InvalidDiscriminant) from rfl,
      show readNum m2 msize off (discSize (caseCount cs))
        = if off + discSize (caseCount cs) ≤ msize
          then Except.ok (readLE m2 off (discSize (caseCount cs)))
          else Except.error CmError.OutOfBounds from rfl,
      if_pos (by omega), hrd, bindOk, if_pos htag, hcase]
    rfl
theorem liftFieldsBack : ∀ (fs : TyList) (vs : ValueList) (off acc : Nat) (s : LowerState)
    (msize : Nat) (m2 : Mem),
    fieldsInDomain fs vs = true →
    off + fieldsEndOff fs acc ≤ s.next →
    (lowerFields fs vs off acc s).next ≤ msize →
    (lowerFields fs vs off acc s).next < 0x100000000 →
    (∀ a, (off + acc ≤ a ∧ a < off + fieldsEndOff fs acc) ∨
        (s.next ≤ a ∧ a < (lowerFields fs vs off acc s).next) →
      m2 a = (lowerFields fs vs off acc s).mem a) →
    liftFields fs m2 msize off acc = Except.ok vs
  | .nil, vs, off, acc, s, msize, m2, hdom, _, _, _, _ => by
    cases vs with
    | nil => rfl
    | cons v vtl => simp [fieldsInDomain] at hdom
  | .cons t ts, vs, off, acc, s, msize, m2, hdom, hslot, hms, hfit, hag => by
    cases vs with
    | nil => simp [fieldsInDomain] at hdom
    | cons v vtl =>
      have hdom' : inDomain t v = true ∧ fieldsInDomain ts vtl = true := by
        simpa [fieldsInDomain, Bool.and_eq_true] using hdom
      have hEnd : fieldsEndOff (TyList.cons t ts) acc
          = fieldsEndOff ts (alignUp acc (alignOf t) + byteSize t) := rfl
      have hgeE := fieldsEndOff_ge ts (alignUp acc (alignOf t) + byteSize t)
      have hleA := le_alignUp acc (alignOf t)
      rw [hEnd] at hslot
      obtain ⟨hm1, hp1⟩ := lower_frame t v (off + alignUp acc (alignOf t)) s
      obtain ⟨hm2F, hp2⟩ := lowerFields_frame ts vtl off (alignUp acc (alignOf t) + byteSize t)
        (lower t v (off + alignUp acc (alignOf t)) s)
      have hSS : lowerFields (TyList.cons t ts) (ValueList.cons v vtl) off acc s
          = lowerFields ts vtl off (alignUp acc (alignOf t) + byteSize t)
            (lower t v (off + alignUp acc (alignOf t)) s) := rfl
      rw [hSS] at hms hfit hag
      have hhead : lift t m2 msize (off + alignUp acc (alignOf t)) = Except.ok v := by
        apply liftBack t v (off + alignUp acc (alignOf t)) s msize m2 hdom'.1
          (by omega) (le_trans hm2F hms) (lt_of_le_of_lt hm2F hfit)
        intro a haa
        have haBig : (off + acc ≤ a ∧ a < off + fieldsEndOff ts
            (alignUp acc (alignOf t) + byteSize t)) ∨ (s.next ≤ a ∧
            a < (lowerFields ts vtl off (alignUp acc (alignOf t) + byteSize t)
              (lower t v (off + alignUp acc (alignOf t)) s)).next) := by
          rcases haa with h | h
          · left; constructor
            · omega
            · omega
          · right; constructor
            · omega
            · have := h.2
              omega
        rw [hag a haBig]
        rcases haa with h | h
        · exact hp2 a (by omega) (by omega)
        · exact hp2 a (by omega) (by
            right
            have hx := h.1
            omega)
      have htail : liftFields ts m2 msize off (alignUp acc (alignOf t) + byteSize t)
          = Except.ok vtl := by
        apply liftFieldsBack ts vtl off (alignUp acc (alignOf t) + byteSize t)
          (lower t v (off + alignUp acc (alignOf t)) s) msize m2 hdom'.2
          (by omega) hms hfit
        intro a haa
        apply hag a
        rcases haa with h | h
        · left
          exact ⟨by omega, h.2⟩
        · right
          exact ⟨by omega, h.2⟩
      rw [show liftFields (TyList.cons t ts) m2 msize off acc
          = Except.bind (lift t m2 msize (off + alignUp acc (alignOf t))) (fun v1 =>
              Except.bind (liftFields ts m2 msize off (alignUp acc (alignOf t) + byteSize t))
                (fun rest => Except.ok (ValueList.cons v1 rest))) from rfl,
        hhead, bindOk, htail, bindOk]
theorem liftCaseBack : ∀ (cs : CaseList) (d : Nat) (pl : OptValue) (off : Nat) (s : LowerState)
    (msize : Nat) (m2 : Mem),
    d < caseCount cs →
    optInDomain (caseGet cs d) pl = true →
    off + optSize (caseGet cs d) ≤ s.next →
    (lowerCase cs d pl off s).next ≤ msize →
    (lowerCase cs d pl off s).next < 0x100000000 →
    (∀ a, (off ≤ a ∧ a < off + optSize (caseGet cs d)) ∨
        (s.next ≤ a ∧ a < (lowerCase cs d pl off s).next) →
      m2 a = (lowerCase cs d pl off s).mem a) →
    liftCase cs d m2 msize off = Except.ok pl
  | .nil, d, pl, off, s, msize, m2, hd, _, _, _, _, _ => by
    simp [caseCount] at hd
  | .cons c cs, 0, pl, off, s, msize, m2, _, hdom, hslot, hms, hfit, hag =>
    liftOptBack c pl off s msize m2 hdom hslot hms hfit hag
  | .cons c cs, d + 1, pl, off, s, msize, m2, hd, hdom, hslot, hms, hfit, hag =>
    liftCaseBack cs d pl off s msize m2
      (by have : caseCount (CaseList.cons c cs) = caseCount cs + 1 := rfl; omega)
      hdom hslot hms hfit hag
theorem liftOptBack : ∀ (c : OptTy) (pl : OptValue) (off : Nat) (s : LowerState) (msize : Nat)
    (m2 : Mem),
    optInDomain c pl = true →
    off + optSize c ≤ s.next →
    (lowerOpt c pl off s).next ≤ msize →
    (lowerOpt c pl off s).next < 0x100000000 →
    (∀ a, (off ≤ a ∧ a < off + optSize c) ∨ (s.next ≤ a ∧ a < (lowerOpt c pl off s).next) →
      m2 a = (lowerOpt c pl off s).mem a) →
    liftOpt c m2 msize off = Except.ok pl
  | .noneT, pl, off, s, msize, m2, hdom, _, _, _, _ => by
    cases pl with
    | none => rfl
    | some v => simp [optInDomain] at hdom
  | .someT t, pl, off, s, msize, m2, hdom, hslot, hms, hfit, hag => by
    cases pl with
    | none => simp [optInDomain] at hdom
    | some v =>
      have hdom' : inDomain t v = true := by simpa [optInDomain] using hdom
      have hlift : lift t m2 msize off = Except.ok v :=
        liftBack t v off s msize m2 hdom' hslot hms hfit hag
      rw [show liftOpt (OptTy.someT t) m2 msize off
          = (lift t m2 msize off).map OptValue.some from rfl, hlift]
      rfl
end

/-! ### Core flattening and the calling convention

Modelled from the spec: the Function Binder derives the calling-convention
class deterministically from the flattened argument/result word count (spec
sections 3 and 4.4). Checked below against the generated raw signatures in
`testbeds/component-model/src/calculator.ts` and `wasi/src/filesystem.ts`. -/

/-- Core wasm value kinds used by flattening (floats omitted). -/
inductive Core where
  | i32 : Core
  | i64 : Core
  deriving DecidableEq

/-- Join two core kinds occupying the same flattened slot across variant
cases: equal kinds stay, differing widths widen to `i64`. -/
def joinCore (a b : Core) : Core := if a = b then a else Core.i64

/-- Join the flattened payload slot lists of two variant cases. -/
def joinFlat : List Core → List Core → List Core
  | [], ys => ys
  | x :: xs, [] => x :: xs
  | x :: xs, y :: ys => joinCore x y :: joinFlat xs ys

mutual
/-- Flattened core signature of a type: the sequence of core wasm values it
occupies when passed directly. A variant contributes its discriminant slot
followed by the join of its case payload slots. -/
def flattenTy : Ty → List Core
  | .bool => [Core.i32]
  | .u8 => [Core.i32]
  | .u16 => [Core.i32]
  | .u32 => [Core.i32]
  | .u64 => [Core.i64]
  | .s8 => [Core.i32]
  | .s16 => [Core.i32]
  | .s32 => [Core.i32]
  | .s64 => [Core.i64]
  | .char => [Core.i32]
  | .wstring => [Core.i32, Core.i32]
  | .list _ => [Core.i32, Core.i32]
  | .record fs => flattenFields fs
  | .variant cs => Core.i32 :: flattenCases cs
  | .flags n => List.replicate (flagsWords n) Core.i32
  | .own => [Core.i32]
  | .borrow => [Core.i32]
def flattenFields : TyList → List Core
  | .nil => []
  | .cons t ts => flattenTy t ++ flattenFields ts
def flattenCases : CaseList → List Core
  | .nil => []
  | .cons c cs => joinFlat (flattenOpt c) (flattenCases cs)
def flattenOpt : OptTy → List Core
  | .noneT => []
  | .someT t => flattenTy t
end

/-- A typed function signature: named parameters and an optional result
(spec `FunctionSignature`; the generated bindings call it `FunctionType`). -/
structure FunctionType where
  params : List (String × Ty)
  result : Option Ty

/-- A raw core signature: core parameter list and an optional direct core
result (`none` is a void raw return). -/
structure CoreSignature where
  params : List Core
  ret : Option Core
  deriving DecidableEq

/-- Threshold on flattened argument words for direct scalar passing. -/
def maxFlatParams : Nat := 16

/-- Threshold on flattened result words for direct scalar return. -/
def maxFlatResults : Nat := 1

def flattenParams (ps : List (String × Ty)) : List Core :=
  ps.foldr (fun p acc => flattenTy p.2 ++ acc) []

def flattenResult : Option Ty → List Core
  | Option.some t => flattenTy t
  | Option.none => []

/-- Derive the raw calling convention of a signature: when the flattened
result fits within `maxFlatResults` the raw function returns it directly as
scalars; otherwise the caller passes a result pointer as a trailing `i32`
parameter and the raw function returns void. Arguments beyond
`maxFlatParams` words are likewise spilled to a single pointer. -/
def lowerSignature (f : FunctionType) : CoreSignature :=
  let fp := flattenParams f.params
  let fr := flattenResult f.result
  let fp2 := if maxFlatParams < fp.length then [Core.i32] else fp
  if fr.length ≤ maxFlatResults then { params := fp2, ret := fr.head? }
  else { params := fp2 ++ [Core.i32], ret := Option.none }

/-! ### Concrete type-descriptor graphs from the generated bindings

`Operands` and `Operation` are `Types.$.Operands` / `Types.$.Operation` of
`testbeds/component-model/src/calculator.ts` (and identically of the async
testbed); the filesystem types are `filesystem.Types.$` of
`wasi/src/filesystem.ts`. `Datetime` is `clocks.WallClock.$.Datetime`
(seconds `u64`, nanoseconds `u32`), as witnessed by the generated
`(i64, i32)` slots of `[method]descriptor.set-times`. -/

def Operands : Ty := Ty.record (TyList.cons Ty.u32 (TyList.cons Ty.u32 TyList.nil))

def operandsFieldNames : List String := ["left", "right"]

def operationCases : CaseList :=
  CaseList.cons (OptTy.someT Operands) (CaseList.cons (OptTy.someT Operands)
    (CaseList.cons (OptTy.someT Operands) (CaseList.cons (OptTy.someT Operands) CaseList.nil)))

def Operation : Ty := Ty.variant operationCases

def operationTags : List String := ["add", "sub", "mul", "div"]

def Datetime : Ty := Ty.record (TyList.cons Ty.u64 (TyList.cons Ty.u32 TyList.nil))

def newTimestampCases : CaseList :=
  CaseList.cons OptTy.noneT (CaseList.cons OptTy.noneT
    (CaseList.cons (OptTy.someT Datetime) CaseList.nil))

def NewTimestamp : Ty := Ty.variant newTimestampCases

def newTimestampTags : List String := ["noChange", "now", "timestamp"]

def DescriptorType : Ty := Ty.enum 8

def DescriptorFlags : Ty := Ty.flags 6

def PathFlags : Ty := Ty.flags 1

def OpenFlags : Ty := Ty.flags 4

def ErrorCode : Ty := Ty.enum 37

def DescriptorStat : Ty :=
  Ty.record (TyList.cons DescriptorType (TyList.cons Ty.u64 (TyList.cons Ty.u64
    (TyList.cons (Ty.option Datetime) (TyList.cons (Ty.option Datetime)
      (TyList.cons (Ty.option Datetime) TyList.nil))))))

def MetadataHashValue : Ty := Ty.record (TyList.cons Ty.u64 (TyList.cons Ty.u64 TyList.nil))

/-- `calculator.$.Exports.calc`: `calc(o: Operation) -> u32`. -/
def calcFn : FunctionType := ⟨[("o", Operation)], Option.some Ty.u32⟩

/-- `[method]descriptor.set-times`. -/
def setTimesFn : FunctionType :=
  ⟨[("self", Ty.borrow), ("dataAccessTimestamp", NewTimestamp),
    ("dataModificationTimestamp", NewTimestamp)],
    Option.some (Ty.result OptTy.noneT (OptTy.someT ErrorCode))⟩

/-- `[method]descriptor.stat`. -/
def statFn : FunctionType :=
  ⟨[("self", Ty.borrow)],
    Option.some (Ty.result (OptTy.someT DescriptorStat) (OptTy.someT ErrorCode))⟩

/-- `[method]descriptor.create-directory-at`. -/
def createDirectoryAtFn : FunctionType :=
  ⟨[("self", Ty.borrow), ("path", Ty.wstring)],
    Option.some (Ty.result OptTy.noneT (OptTy.someT ErrorCode))⟩

/-- `[method]descriptor.metadata-hash`. -/
def metadataHashFn : FunctionType :=
  ⟨[("self", Ty.borrow)],
    Option.some (Ty.result (OptTy.someT MetadataHashValue) (OptTy.someT ErrorCode))⟩

/-- `[method]descriptor.read-via-stream` (streams are own-handles). -/
def readViaStreamFn : FunctionType :=
  ⟨[("self", Ty.borrow), ("offset", Ty.u64)],
    Option.some (Ty.result (OptTy.someT Ty.own) (OptTy.someT ErrorCode))⟩

/-- `[method]descriptor.is-same-object`: a direct scalar result. -/
def isSameObjectFn : FunctionType :=
  ⟨[("self", Ty.borrow), ("other", Ty.borrow)], Option.some Ty.bool⟩

/-- `Preopens.$.getDirectories`: `() -> list<(own<descriptor>, string)>`. -/
def getDirectoriesFn : FunctionType :=
  ⟨[], Option.some (Ty.list (Ty.tuple (TyList.cons Ty.own (TyList.cons Ty.wstring TyList.nil))))⟩

/-! ### The resource handle table

Modelled from the spec, section 4.3 and the `ResourceHandleTable` data model
of section 3: a per-instantiation table mapping opaque integer handles to a
representation plus a live-borrow count; handles are allocated
monotonically; `dropOwn` invokes the registered destructor (recorded in
`dtorLog`) before freeing the slot, fails with `ResourceInUse` while any
borrow token is live, and dereferencing an unknown handle fails with
`UnknownHandle`. Fallible operations return their error together with the
(unchanged) table so that state preservation on failure is provable. -/

structure TableEntry where
  rep : Nat
  borrows : Nat
  deriving DecidableEq

structure ResourceHandleTable where
  entries : List (Nat × TableEntry)
  nextHandle : Nat
  dtorLog : List Nat
  deriving DecidableEq

def lookupHandle : List (Nat × TableEntry) → Nat → Option TableEntry
  | [], _ => Option.none
  | p :: ps, h => if p.1 = h then Option.some p.2 else lookupHandle ps h

def removeHandle (ps : List (Nat × TableEntry)) (h : Nat) : List (Nat × TableEntry) :=
  ps.filter (fun p => p.1 ≠ h)

def setBorrows (ps : List (Nat × TableEntry)) (h b : Nat) : List (Nat × TableEntry) :=
  ps.map (fun p => if p.1 = h then (p.1, TableEntry.mk p.2.rep b) else p)

/-- Allocate a fresh own-handle for `rep`; handles are monotonic. -/
def allocateOwn (tbl : ResourceHandleTable) (rep : Nat) : Nat × ResourceHandleTable :=
  (tbl.nextHandle,
    ⟨(tbl.nextHandle, ⟨rep, 0⟩) :: tbl.entries, tbl.nextHandle + 1, tbl.dtorLog⟩)

/-- Resolve a handle to its representation. -/
def dereference (tbl : ResourceHandleTable) (h : Nat) : Except CmError Nat :=
  match lookupHandle tbl.entries h with
  | Option.some e => Except.ok e.rep
  | Option.none => Except.error CmError.UnknownHandle

/-- Take a borrow token on `h` (the token is the handle itself; the table
counts live borrows). -/
def allocateBorrow (tbl : ResourceHandleTable) (h : Nat) :
    Except CmError Nat × ResourceHandleTable :=
  match lookupHandle tbl.entries h with
  | Option.some e =>
    (Except.ok h, ⟨setBorrows tbl.entries h (e.borrows + 1), tbl.nextHandle, tbl.dtorLog⟩)
  | Option.none => (Except.error CmError.UnknownHandle, tbl)

/-- Release a borrow token on `h`. -/
def releaseBorrow (tbl : ResourceHandleTable) (h : Nat) : ResourceHandleTable :=
  match lookupHandle tbl.entries h with
  | Option.some e => ⟨setBorrows tbl.entries h (e.borrows - 1), tbl.nextHandle, tbl.dtorLog⟩
  | Option.none => tbl

/-- Drop an own-handle: fails with `UnknownHandle` for an absent handle and
with `ResourceInUse` while any borrow is live, leaving the table unchanged;
otherwise invokes the destructor on the representation (recorded in
`dtorLog`) and frees the slot. -/
def dropOwn (tbl : ResourceHandleTable) (h : Nat) :
    Except CmError Unit × ResourceHandleTable :=
  match lookupHandle tbl.entries h with
  | Option.none => (Except.error CmError.UnknownHandle, tbl)
  | Option.some e =>
    if e.borrows ≠ 0 then (Except.error CmError.ResourceInUse, tbl)
    else (Except.ok (), ⟨removeHandle tbl.entries h, tbl.nextHandle, e.rep :: tbl.dtorLog⟩)

/-- Table well-formedness: every live handle is below the allocation
cursor (holds for every table reachable from the empty one). -/
def handlesBelow (tbl : ResourceHandleTable) : Bool :=
  tbl.entries.all (fun p => p.1 < tbl.nextHandle)

theorem lookupHandle_remove (ps : List (Nat × TableEntry)) (h : Nat) :
    lookupHandle (removeHandle ps h) h = Option.none := by
  induction ps with
  | nil => rfl
  | cons p ps ih =>
    by_cases hp : p.1 = h
    · simpa [removeHandle, List.filter, hp] using ih
    · simpa [removeHandle, List.filter, hp, lookupHandle] using ih

theorem lookupHandle_setBorrows (ps : List (Nat × TableEntry)) (h b : Nat) :
    lookupHandle (setBorrows ps h b) h
      = (lookupHandle ps h).map (fun e => TableEntry.mk e.rep b) := by
  induction ps with
  | nil => rfl
  | cons p ps ih =>
    by_cases hp : p.1 = h
    · simp [setBorrows, lookupHandle, hp]
    · simpa [setBorrows, lookupHandle, hp] using ih

theorem lookupHandle_none_of_ge (ps : List (Nat × TableEntry)) (bound h : Nat)
    (hwf : ps.all (fun p => p.1 < bound) = true) (hh : bound ≤ h) :
    lookupHandle ps h = Option.none := by
  induction ps with
  | nil => rfl
  | cons p ps ih =>
    simp only [List.all_cons, Bool.and_eq_true, decide_eq_true_eq] at hwf
    have hp : p.1 ≠ h := by omega
    simpa [lookupHandle, hp] using ih hwf.2

/-! ### The generator tool's option validation

`Options.validate` from `wasm-component-model/src/tools/options.ts`. The
`package` field is a RegExp in the source and is modelled by its source
pattern; `file` and `outDir` are `string | undefined` and JavaScript
truthiness makes both `undefined` and the empty string falsy. The source
writes a message to stderr before returning `false`; the model returns the
written messages alongside the boolean so the effect is visible, and the
options value itself is never modified (`validate` is a plain function of
it). -/

structure Options where
  help : Bool
  version : Bool
  outDir : Option String
  package : String
  file : Option String
  deriving DecidableEq

/-- JavaScript truthiness of a `string | undefined` value. -/
def truthy : Option String → Bool
  | Option.none => false
  | Option.some s => decide (s ≠ "")

/-- `Options.defaults`. -/
def Options.defaults : Options := ⟨false, false, Option.none, ".*", Option.none⟩

/-- `Options.validate`: checks `file` then `outDir`, writing one stderr
message and returning false at the first missing argument. -/
def validate (options : Options) : Bool × List String :=
  if ¬ truthy options.file then (false, ["Missing file argument.\n"])
  else if ¬ truthy options.outDir then (false, ["Missing outDir argument.\n"])
  else (true, [])

/-! ### Lifting never performs an out-of-range memory access

Every read of `lift` is bounds-checked, so the result depends only on the
bytes below the memory size. -/

theorem readNum_ext (m m2 : Mem) (msize off w : Nat) (h : ∀ a, a < msize → m a = m2 a) :
    readNum m msize off w = readNum m2 msize off w := by
  unfold readNum
  split
  · rename_i hb
    rw [readLE_ext m m2 off w (fun a h1 h2 => h a (by omega))]
  · rfl

theorem liftLoop_congr (f f2 : Nat → Except CmError Value) (hf : ∀ a, f a = f2 a) :
    ∀ (n addr stride : Nat), liftLoop f addr stride n = liftLoop f2 addr stride n := by
  intro n
  induction n with
  | zero => intro addr stride; rfl
  | succ k ih =>
    intro addr stride
    rw [show liftLoop f addr stride (k + 1)
        = (do
            let v ← f addr
            let rest ← liftLoop f (addr + stride) stride k
            Except.ok (ValueList.cons v rest)) from rfl,
      show liftLoop f2 addr stride (k + 1)
        = (do
            let v ← f2 addr
            let rest ← liftLoop f2 (addr + stride) stride k
            Except.ok (ValueList.cons v rest)) from rfl,
      hf addr, ih (addr + stride) stride]

mutual
theorem lift_ext : ∀ (t : Ty) (m m2 : Mem) (msize off : Nat),
    (∀ a, a < msize → m a = m2 a) → lift t m msize off = lift t m2 msize off
  | .bool, m, m2, msize, off, h => by
    rw [show lift Ty.bool m msize off
        = (readNum m msize off 1).map (fun b1 => Value.num (min b1 1)) from rfl,
      show lift Ty.bool m2 msize off
        = (readNum m2 msize off 1).map (fun b1 => Value.num (min b1 1)) from rfl,
      readNum_ext m m2 msize off 1 h]
  | .u8, m, m2, msize, off, h => by
    rw [show lift Ty.u8 m msize off = (readNum m msize off 1).map Value.num from rfl,
      show lift Ty.u8 m2 msize off = (readNum m2 msize off 1).map Value.num from rfl,
      readNum_ext m m2 msize off 1 h]
  | .u16, m, m2, msize, off, h => by
    rw [show lift Ty.u16 m msize off = (readNum m msize off 2).map Value.num from rfl,
      show lift Ty.u16 m2 msize off = (readNum m2 msize off 2).map Value.num from rfl,
      readNum_ext m m2 msize off 2 h]
  | .u32, m, m2, msize, off, h => by
    rw [show lift Ty.u32 m msize off = (readNum m msize off 4).map Value.num from rfl,
      show lift Ty.u32 m2 msize off = (readNum m2 msize off 4).map Value.num from rfl,
      readNum_ext m m2 msize off 4 h]
  | .u64, m, m2, msize, off, h => by
    rw [show lift Ty.u64 m msize off = (readNum m msize off 8).map Value.num from rfl,
      show lift Ty.u64 m2 msize off = (readNum m2 msize off 8).map Value.num from rfl,
      readNum_ext m m2 msize off 8 h]
  | .s8, m, m2, msize, off, h => by
    rw [show lift Ty.s8 m msize off
        = (readNum m msize off 1).map (fun u => Value.sint (sintOfWire 1 u)) from rfl,
      show lift Ty.s8 m2 msize off
        = (readNum m2 msize off 1).map (fun u => Value.sint (sintOfWire 1 u)) from rfl,
      readNum_ext m m2 msize off 1 h]
  | .s16, m, m2, msize, off, h => by
    rw [show lift Ty.s16 m msize off
        = (readNum m msize off 2).map (fun u => Value.sint (sintOfWire 2 u)) from rfl,
      show lift Ty.s16 m2 msize off
        = (readNum m2 msize off 2).map (fun u => Value.sint (sintOfWire 2 u)) from rfl,
      readNum_ext m m2 msize off 2 h]
  | .s32, m, m2, msize, off, h => by
    rw [show lift Ty.s32 m msize off
        = (readNum m msize off 4).map (fun u => Value.sint (sintOfWire 4 u)) from rfl,
      show lift Ty.s32 m2 msize off
        = (readNum m2 msize off 4).map (fun u => Value.sint (sintOfWire 4 u)) from rfl,
      readNum_ext m m2 msize off 4 h]
  | .s64, m, m2, msize, off, h => by
    rw [show lift Ty.s64 m msize off
        = (readNum m msize off 8).map (fun u => Value.sint (sintOfWire 8 u)) from rfl,
      show lift Ty.s64 m2 msize off
        = (readNum m2 msize off 8).map (fun u => Value.sint (sintOfWire 8 u)) from rfl,
      readNum_ext m m2 msize off 8 h]
  | .char, m, m2, msize, off, h => by
    rw [show lift Ty.char m msize off
        = Except.bind (readNum m msize off 4) (fun c1 =>
            if validScalar c1 then Except.ok (Value.num c1)
            else Except.error CmError.EncodingError) from rfl,
      show lift Ty.char m2 msize off
        = Except.bind (readNum m2 msize off 4) (fun c1 =>
            if validScalar c1 then Except.ok (Value.num c1)
            else Except.error CmError.EncodingError) from rfl,
      readNum_ext m m2 msize off 4 h]
  | .flags n, m, m2, msize, off, h => by
    rw [show lift (Ty.flags n) m msize off
        = (readNum m msize off (4 * flagsWords n)).map Value.num from rfl,
      show lift (Ty.flags n) m2 msize off
        = (readNum m2 msize off (4 * flagsWords n)).map Value.num from rfl,
      readNum_ext m m2 msize off (4 * flagsWords n) h]
  | .own, m, m2, msize, off, h => by
    rw [show lift Ty.own m msize off = (readNum m msize off 4).map Value.num from rfl,
      show lift Ty.own m2 msize off = (readNum m2 msize off 4).map Value.num from rfl,
      readNum_ext m m2 msize off 4 h]
  | .borrow, m, m2, msize, off, h => by
    rw [show lift Ty.borrow m msize off = (readNum m msize off 4).map Value.num from rfl,
      show lift Ty.borrow m2 msize off = (readNum m2 msize off 4).map Value.num from rfl,
      readNum_ext m m2 msize off 4 h]
  | .wstring, m, m2, msize, off, h => by
    rw [show lift Ty.wstring m msize off
        = Except.bind (readNum m msize off 4) (fun p =>
            Except.bind (readNum m msize (off + 4) 4) (fun len =>
              if p + len ≤ msize then
                match utf8Decode (readBytesL m p len) with
                | Option.some s1 => Except.ok (Value.str s1)
                | Option.none => Except.error CmError.EncodingError
              else Except.error CmError.OutOfBounds)) from rfl,
      show lift Ty.wstring m2 msize off
        = Except.bind (readNum m2 msize off 4) (fun p =>
            Except.bind (readNum m2 msize (off + 4) 4) (fun len =>
              if p + len ≤ msize then
                match utf8Decode (readBytesL m2 p len) with
                | Option.some s1 => Except.ok (Value.str s1)
                | Option.none => Except.error CmError.EncodingError
              else Except.error CmError.OutOfBounds)) from rfl,
      readNum_ext m m2 msize off 4 h, readNum_ext m m2 msize (off + 4) 4 h]
    cases h1 : readNum m2 msize off 4 with
    | error e => rfl
    | ok p =>
      rw [bindOk, bindOk]
      cases h2 : readNum m2 msize (off + 4) 4 with
      | error e => rfl
      | ok len =>
        rw [bindOk, bindOk]
        by_cases hb : p + len ≤ msize
        · rw [if_pos hb, if_pos hb,
            readBytesL_ext m m2 p len (fun a ha1 ha2 => h a (by omega))]
        · rw [if_neg hb, if_neg hb]
  | .list t, m, m2, msize, off, h => by
    rw [show lift (Ty.list t) m msize off
        = Except.bind (readNum m msize off 4) (fun p =>
            Except.bind (readNum m msize (off + 4) 4) (fun len =>
              if len ≤ listCeiling ∧ p + len * byteSize t ≤ msize then
                (liftLoop (lift t m msize) p (byteSize t) len).map Value.list
              else Except.error CmError.OutOfBounds)) from rfl,
      show lift (Ty.list t) m2 msize off
        = Except.bind (readNum m2 msize off 4) (fun p =>
            Except.bind (readNum m2 msize (off + 4) 4) (fun len =>
              if len ≤ listCeiling ∧ p + len * byteSize t ≤ msize then
                (liftLoop (lift t m2 msize) p (byteSize t) len).map Value.list
              else Except.error CmError.OutOfBounds)) from rfl,
      readNum_ext m m2 msize off 4 h, readNum_ext m m2 msize (off + 4) 4 h]
    cases h1 : readNum m2 msize off 4 with
    | error e => rfl
    | ok p =>
      rw [bindOk, bindOk]
      cases h2 : readNum m2 msize (off + 4) 4 with
      | error e => rfl
      | ok len =>
        rw [bindOk, bindOk]
        by_cases hb : len ≤ listCeiling ∧ p + len * byteSize t ≤ msize
        · rw [if_pos hb, if_pos hb,
            liftLoop_congr (lift t m msize) (lift t m2 msize)
              (fun a => lift_ext t m m2 msize a h) len p (byteSize t)]
        · rw [if_neg hb, if_neg hb]
  | .record fs, m, m2, msize, off, h => by
    rw [show lift (Ty.record fs) m msize off
        = (liftFields fs m msize off 0).map Value.record from rfl,
      show lift (Ty.record fs) m2 msize off
        = (liftFields fs m2 msize off 0).map Value.record from rfl,
      liftFields_ext fs m m2 msize off 0 h]
  | .variant cs, m, m2, msize, off, h => by
    rw [show lift (Ty.variant cs) m msize off
        = Except.bind (readNum m msize off (discSize (caseCount cs))) (fun d =>
            if d < caseCount cs then
              (liftCase cs d m msize (off + payloadOff cs)).map (Value.variant d)
            else Except.error CmError.InvalidDiscriminant) from rfl,
      show lift (Ty.variant cs) m2 msize off
        = Except.bind (readNum m2 msize off (discSize (caseCount cs))) (fun d =>
            if d < caseCount cs then
              (liftCase cs d m2 msize (off + payloadOff cs)).map (Value.variant d)
            else Except.error CmError.InvalidDiscriminant) from rfl,
      readNum_ext m m2 msize off (discSize (caseCount cs)) h]
    cases h1 : readNum m2 msize off (discSize (caseCount cs)) with
    | error e => rfl
    | ok d =>
      rw [bindOk, bindOk]
      by_cases hd : d < caseCount cs
      · rw [if_pos hd, if_pos hd, liftCase_ext cs d m m2 msize (off + payloadOff cs) h]
      · rw [if_neg hd, if_neg hd]
theorem liftFields_ext : ∀ (fs : TyList) (m m2 : Mem) (msize off acc : Nat),
    (∀ a, a < msize → m a = m2 a) →
    liftFields fs m msize off acc = liftFields fs m2 msize off acc
  | .nil, m, m2, msize, off, acc, h => rfl
  | .cons t ts, m, m2, msize, off, acc, h => by
    rw [show liftFields (TyList.cons t ts) m msize off acc
        = Except.bind (lift t m msize (off + alignUp acc (alignOf t))) (fun v1 =>
            Except.bind (liftFields ts m msize off (alignUp acc (alignOf t) + byteSize t))
              (fun rest => Except.ok (ValueList.cons v1 rest))) from rfl,
      show liftFields (TyList.cons t ts) m2 msize off acc
        = Except.bind (lift t m2 msize (off + alignUp acc (alignOf t))) (fun v1 =>
            Except.bind (liftFields ts m2 msize off (alignUp acc (alignOf t) + byteSize t))
              (fun rest => Except.ok (ValueList.cons v1 rest))) from rfl,
      lift_ext t m m2 msize (off + alignUp acc (alignOf t)) h,
      liftFields_ext ts m m2 msize off (alignUp acc (alignOf t) + byteSize t) h]
theorem liftCase_ext : ∀ (cs : CaseList) (d : Nat) (m m2 : Mem) (msize off : Nat),
    (∀ a, a < msize → m a = m2 a) →
    liftCase cs d m msize off = liftCase cs d m2 msize off
  | .nil, d, m, m2, msize, off, h => rfl
  | .cons c cs, 0, m, m2, msize, off, h => liftOpt_ext c m m2 msize off h
  | .cons c cs, d + 1, m, m2, msize, off, h => liftCase_ext cs d m m2 msize off h
theorem liftOpt_ext : ∀ (c : OptTy) (m m2 : Mem) (msize off : Nat),
    (∀ a, a < msize → m a = m2 a) →
    liftOpt c m msize off = liftOpt c m2 msize off
  | .noneT, m, m2, msize, off, h => rfl
  | .someT t, m, m2, msize, off, h => by
    rw [show liftOpt (OptTy.someT t) m msize off
        = (lift t m msize off).map OptValue.some from rfl,
      show liftOpt (OptTy.someT t) m2 msize off
        = (lift t m2 msize off).map OptValue.some from rfl,
      lift_ext t m m2 msize off h]
end

/-! ### Shared helpers for the claim theorems -/

def zeroMem : Mem := fun _ => 0

/-- The native value `Operation.Sub({left: 10, right: 4})`: tag index 1
(`sub` in `operationTags`), payload the record `{left: 10, right: 4}`. -/
def subValue : Value :=
  Value.variant 1 (OptValue.some (Value.record
    (ValueList.cons (Value.num 10) (ValueList.cons (Value.num 4) ValueList.nil))))

theorem caseCount_caseListNone (n : Nat) : caseCount (caseListNone n) = n := by
  induction n with
  | zero => rfl
  | succ k ih =>
    show caseCount (caseListNone k) + 1 = k + 1
    rw [ih]

theorem variant_disc_fail (cs : CaseList) (m : Mem) (msize off : Nat)
    (hb : off + discSize (caseCount cs) ≤ msize)
    (hd : caseCount cs ≤ readLE m off (discSize (caseCount cs))) :
    lift (Ty.variant cs) m msize off = Except.error CmError.InvalidDiscriminant := by
  rw [show lift (Ty.variant cs) m msize off
      = Except.bind (readNum m msize off (discSize (caseCount cs))) (fun d =>
          if d < caseCount cs then
            (liftCase cs d m msize (off + payloadOff cs)).map (Value.variant d)
          else Except.error CmError.InvalidDiscriminant) from rfl,
    show readNum m msize off (discSize (caseCount cs))
      = if off + discSize (caseCount cs) ≤ msize
        then Except.ok (readLE m off (discSize (caseCount cs)))
        else Except.error CmError.OutOfBounds from rfl,
    if_pos hb, bindOk, if_neg (by omega)]

/-! ### Claim theorems -/

/-- C1: for every TypeDescriptor and every value within its domain, lowering
the value and then lifting the result yields a value structurally equal to
the original (the lowered image must fit below the memory size inside the
32-bit address space); in particular, for the calculator `Operation` variant
with cases `add`/`sub`/`mul`/`div` each carrying `Operands = {left: u32,
right: u32}`, lowering `Sub({left: 10, right: 4})` and lifting yields a value
whose tag is index 1, named `sub`, and whose value is the record
`{left: 10, right: 4}`. -/
theorem c1_roundTrip_lift_lower :
    (∀ (t : Ty) (v : Value) (off : Nat) (s : LowerState) (msize : Nat),
      inDomain t v = true →
      off + byteSize t ≤ s.next →
      (lower t v off s).next ≤ msize →
      (lower t v off s).next < 0x100000000 →
      lift t (lower t v off s).mem msize off = Except.ok v) ∧
    (lift Operation (lower Operation subValue 0 ⟨zeroMem, byteSize Operation⟩).mem
        (lower Operation subValue 0 ⟨zeroMem, byteSize Operation⟩).next 0
      = Except.ok subValue ∧
      subValue.asTag = 1 ∧
      operationTags.get? 1 = Option.some "sub" ∧
      subValue.asPayload = OptValue.some (Value.record
        (ValueList.cons (Value.num 10) (ValueList.cons (Value.num 4) ValueList.nil)))) := by
  constructor
  · intro t v off s msize hdom hslot hms hfit
    exact liftBack t v off s msize (lower t v off s).mem hdom hslot hms hfit (fun a _ => rfl)
  · exact ⟨rfl, rfl, rfl, rfl⟩

theorem c1_roundTrip_lift_lower_witness :
    inDomain Operation subValue = true ∧
    lift Operation (lower Operation subValue 0 ⟨zeroMem, 12⟩).mem
      (lower Operation subValue 0 ⟨zeroMem, 12⟩).next 0 = Except.ok subValue :=
  ⟨by decide,
    c1_roundTrip_lift_lower.1 Operation subValue 0 ⟨zeroMem, 12⟩
      (lower Operation subValue 0 ⟨zeroMem, 12⟩).next
      (by decide) (by decide) (by decide) (by decide)⟩

/-- C2: for every Variant (with Enum and Result as payload-free and two-case
variants), lifting from memory holding a discriminant at least the case
count (in particular equal to it) fails with `InvalidDiscriminant`; it never
succeeds by silently mapping the out-of-range discriminant to any case. -/
theorem c2_invalidDiscriminant :
    (∀ (cs : CaseList) (m : Mem) (msize off : Nat),
      off + discSize (caseCount cs) ≤ msize →
      caseCount cs ≤ readLE m off (discSize (caseCount cs)) →
      lift (Ty.variant cs) m msize off = Except.error CmError.InvalidDiscriminant) ∧
    (∀ (n : Nat) (m : Mem) (msize off : Nat),
      off + discSize n ≤ msize →
      n ≤ readLE m off (discSize n) →
      lift (Ty.enum n) m msize off = Except.error CmError.InvalidDiscriminant) ∧
    (∀ (okT errT : OptTy) (m : Mem) (msize off : Nat),
      off + 1 ≤ msize →
      2 ≤ readLE m off 1 →
      lift (Ty.result okT errT) m msize off = Except.error CmError.InvalidDiscriminant) := by
  refine ⟨variant_disc_fail, fun n m msize off hb hd => ?_, fun okT errT m msize off hb hd => ?_⟩
  · have hc := caseCount_caseListNone n
    exact variant_disc_fail (caseListNone n) m msize off (by rw [hc]; exact hb)
      (by rw [hc]; exact hd)
  · exact variant_disc_fail
      (CaseList.cons okT (CaseList.cons errT CaseList.nil)) m msize off hb hd

theorem c2_invalidDiscriminant_witness :
    lift Operation (fun _ => 4) 12 0 = Except.error CmError.InvalidDiscriminant ∧
    lift (Ty.enum 37) (fun _ => 37) 1 0 = Except.error CmError.InvalidDiscriminant ∧
    lift (Ty.result OptTy.noneT (OptTy.someT (Ty.enum 37))) (fun _ => 2) 4 0
      = Except.error CmError.InvalidDiscriminant :=
  ⟨c2_invalidDiscriminant.1 operationCases (fun _ => 4) 12 0 (by decide) (by decide),
    c2_invalidDiscriminant.2.1 37 (fun _ => 37) 1 0 (by decide) (by decide),
    c2_invalidDiscriminant.2.2 OptTy.noneT (OptTy.someT (Ty.enum 37)) (fun _ => 2) 4 0
      (by decide) (by decide)⟩

/-- C3: for every resource handle table and representation `x`, a handle
returned by `allocateOwn x` dereferences to `x`; after a successful
`dropOwn` the handle no longer dereferences (`UnknownHandle`) and the
registered destructor was invoked on the representation before the slot was
freed (recorded in `dtorLog`); a handle never allocated in the table (at or
above the monotone allocation cursor) also fails with `UnknownHandle`. -/
theorem c3_resource_lifecycle :
    (∀ (tbl : ResourceHandleTable) (x : Nat),
      dereference (allocateOwn tbl x).2 (allocateOwn tbl x).1 = Except.ok x) ∧
    (∀ (tbl tbl2 : ResourceHandleTable) (h r : Nat),
      dereference tbl h = Except.ok r →
      dropOwn tbl h = (Except.ok (), tbl2) →
      dereference tbl2 h = Except.error CmError.UnknownHandle ∧
      tbl2.dtorLog = r :: tbl.dtorLog) ∧
    (∀ (tbl : ResourceHandleTable) (h : Nat),
      handlesBelow tbl = true → tbl.nextHandle ≤ h →
      dereference tbl h = Except.error CmError.UnknownHandle) := by
  refine ⟨fun tbl x => ?_, fun tbl tbl2 h r hderef hdrop => ?_, fun tbl h hwf hge => ?_⟩
  · simp [dereference, allocateOwn, lookupHandle]
  · unfold dereference at hderef
    unfold dropOwn at hdrop
    cases hl : lookupHandle tbl.entries h with
    | none => rw [hl] at hderef; exact absurd hderef (by simp)
    | some e =>
      rw [hl] at hderef hdrop
      dsimp only at hderef hdrop
      have hre : e.rep = r := by simpa using hderef
      by_cases hbor : e.borrows ≠ 0
      · rw [if_pos hbor] at hdrop
        exact absurd hdrop (by simp)
      · rw [if_neg hbor] at hdrop
        have htbl2 : tbl2 = ⟨removeHandle tbl.entries h, tbl.nextHandle, e.rep :: tbl.dtorLog⟩ := by
          have := congrArg Prod.snd hdrop
          simpa using this.symm
        subst htbl2
        refine ⟨?_, by simp [hre]⟩
        simp [dereference, lookupHandle_remove]
  · unfold dereference
    rw [lookupHandle_none_of_ge tbl.entries tbl.nextHandle h hwf hge]

theorem c3_resource_lifecycle_witness :
    dereference (allocateOwn ⟨[], 0, []⟩ 42).2 (allocateOwn ⟨[], 0, []⟩ 42).1
      = Except.ok 42 ∧
    dereference ⟨[], 1, [42]⟩ 0 = Except.error CmError.UnknownHandle ∧
    dereference ⟨[(0, ⟨42, 0⟩)], 1, []⟩ 5 = Except.error CmError.UnknownHandle :=
  ⟨c3_resource_lifecycle.1 ⟨[], 0, []⟩ 42,
    (c3_resource_lifecycle.2.1 ⟨[(0, ⟨42, 0⟩)], 1, []⟩ ⟨[], 1, [42]⟩ 0 42 rfl rfl).1,
    c3_resource_lifecycle.2.2 ⟨[(0, ⟨42, 0⟩)], 1, []⟩ 5 (by decide) (by decide)⟩

/-- C4: `dropOwn` on a handle with at least one live (unreleased) borrow
token fails with a catchable `ResourceInUse` error and returns the table
unchanged: the handle still dereferences to its representation and no
destructor is invoked by the failed drop; moreover `allocateBorrow`
produces exactly such a live borrow. -/
theorem c4_dropOwn_resourceInUse :
    (∀ (tbl : ResourceHandleTable) (h : Nat) (e : TableEntry),
      lookupHandle tbl.entries h = Option.some e → 0 < e.borrows →
      dropOwn tbl h = (Except.error CmError.ResourceInUse, tbl) ∧
      dereference tbl h = Except.ok e.rep ∧
      (dropOwn tbl h).2.dtorLog = tbl.dtorLog) ∧
    (∀ (tbl : ResourceHandleTable) (h : Nat) (e : TableEntry),
      lookupHandle tbl.entries h = Option.some e →
      (allocateBorrow tbl h).1 = Except.ok h ∧
      lookupHandle (allocateBorrow tbl h).2.entries h
        = Option.some (TableEntry.mk e.rep (e.borrows + 1))) := by
  refine ⟨fun tbl h e hl hbor => ?_, fun tbl h e hl => ?_⟩
  · have hdrop : dropOwn tbl h = (Except.error CmError.ResourceInUse, tbl) := by
      unfold dropOwn
      rw [hl]
      dsimp only
      rw [if_pos (show e.borrows ≠ 0 by omega)]
    refine ⟨hdrop, ?_, by rw [hdrop]⟩
    unfold dereference
    rw [hl]
  · have hres : allocateBorrow tbl h
        = (Except.ok h, ⟨setBorrows tbl.entries h (e.borrows + 1), tbl.nextHandle,
            tbl.dtorLog⟩) := by
      unfold allocateBorrow
      rw [hl]
    rw [hres]
    exact ⟨rfl, by rw [lookupHandle_setBorrows, hl]; rfl⟩

theorem c4_dropOwn_resourceInUse_witness :
    dropOwn ⟨[(0, ⟨42, 1⟩)], 1, []⟩ 0
      = (Except.error CmError.ResourceInUse, ⟨[(0, ⟨42, 1⟩)], 1, []⟩) ∧
    dereference ⟨[(0, ⟨42, 1⟩)], 1, []⟩ 0 = Except.ok 42 ∧
    lookupHandle (allocateBorrow ⟨[(0, ⟨42, 0⟩)], 1, []⟩ 0).2.entries 0
      = Option.some (TableEntry.mk 42 1) :=
  ⟨(c4_dropOwn_resourceInUse.1 ⟨[(0, ⟨42, 1⟩)], 1, []⟩ 0 ⟨42, 1⟩ (by decide) (by decide)).1,
    (c4_dropOwn_resourceInUse.1 ⟨[(0, ⟨42, 1⟩)], 1, []⟩ 0 ⟨42, 1⟩ (by decide) (by decide)).2.1,
    (c4_dropOwn_resourceInUse.2 ⟨[(0, ⟨42, 0⟩)], 1, []⟩ 0 ⟨42, 0⟩ (by decide)).2⟩

/-- C5: the calling-convention class of a signature is a deterministic
function of its flattened result word count: when the flattened result fits
within `maxFlatResults` the raw function returns it directly as scalars (the
calculator export `calc(o: operation) -> u32` flattens to three `i32`
arguments and a direct `i32` return), and otherwise the caller passes a
trailing `i32` result pointer and the raw function returns void (every
filesystem `Descriptor` method returning `result<_, error-code>`, matching
the generated raw `WasmInterface` signatures, including the raw
`(result: ptr) => void` shape of `get-directories` and the direct `i32`
return of `is-same-object`). -/
theorem c5_callingConvention :
    (∀ f : FunctionType,
      ((flattenResult f.result).length ≤ maxFlatResults →
        lowerSignature f
          = ⟨if maxFlatParams < (flattenParams f.params).length then [Core.i32]
             else flattenParams f.params,
             (flattenResult f.result).head?⟩) ∧
      (maxFlatResults < (flattenResult f.result).length →
        lowerSignature f
          = ⟨(if maxFlatParams < (flattenParams f.params).length then [Core.i32]
              else flattenParams f.params) ++ [Core.i32],
             Option.none⟩)) ∧
    lowerSignature calcFn = ⟨[Core.i32, Core.i32, Core.i32], Option.some Core.i32⟩ ∧
    lowerSignature setTimesFn
      = ⟨[Core.i32, Core.i32, Core.i64, Core.i32, Core.i32, Core.i64, Core.i32, Core.i32],
          Option.none⟩ ∧
    lowerSignature statFn = ⟨[Core.i32, Core.i32], Option.none⟩ ∧
    lowerSignature createDirectoryAtFn
      = ⟨[Core.i32, Core.i32, Core.i32, Core.i32], Option.none⟩ ∧
    lowerSignature metadataHashFn = ⟨[Core.i32, Core.i32], Option.none⟩ ∧
    lowerSignature readViaStreamFn = ⟨[Core.i32, Core.i64, Core.i32], Option.none⟩ ∧
    lowerSignature isSameObjectFn = ⟨[Core.i32, Core.i32], Option.some Core.i32⟩ ∧
    lowerSignature getDirectoriesFn = ⟨[Core.i32], Option.none⟩ := by
  refine ⟨fun f => ⟨fun h1 => ?_, fun h2 => ?_⟩, ?_, ?_, ?_, ?_, ?_, ?_, ?_, ?_⟩
  · unfold lowerSignature
    dsimp only
    rw [if_pos h1]
  · unfold lowerSignature
    dsimp only
    rw [if_neg (by omega)]
  all_goals decide

theorem c5_callingConvention_witness :
    lowerSignature calcFn
      = ⟨if maxFlatParams < (flattenParams calcFn.params).length then [Core.i32]
         else flattenParams calcFn.params,
         (flattenResult calcFn.result).head?⟩ ∧
    lowerSignature statFn
      = ⟨(if maxFlatParams < (flattenParams statFn.params).length then [Core.i32]
          else flattenParams statFn.params) ++ [Core.i32],
         Option.none⟩ :=
  ⟨(c5_callingConvention.1 calcFn).1 (by decide),
    (c5_callingConvention.1 statFn).2 (by decide)⟩

/-- C6: the wire representation of a variant places the discriminant first,
in the smallest width among 1, 2 and 4 bytes covering the case count,
followed after padding to the maximum payload alignment by the active case's
payload; the flattened form joins payload slots across cases (`NewTimestamp`
with cases `noChange`/`now`/`timestamp(Datetime)` flattens to
`(i32, i64, i32)`); lifting consults only the discriminant and the active
case's descriptor, so storage belonging to inactive cases is never
interpreted (a `noChange` lift succeeds and ignores arbitrary junk bytes in
the payload region). -/
theorem c6_variant_layout :
    (∀ n : Nat, n ≤ 0x100000000 →
      n ≤ 256 ^ discSize n ∧
      ∀ w : Nat, (w = 1 ∨ w = 2 ∨ w = 4) → n ≤ 256 ^ w → discSize n ≤ w) ∧
    (∀ (cs : CaseList) (v : Value) (off : Nat) (s : LowerState),
      lower (Ty.variant cs) v off s
        = lowerCase cs v.asTag v.asPayload
            (off + alignUp (discSize (caseCount cs)) (casesMaxAlign cs))
            ⟨writeLE s.mem off (discSize (caseCount cs)) v.asTag, s.next⟩) ∧
    (∀ (cs : CaseList) (m : Mem) (msize off : Nat),
      off + discSize (caseCount cs) ≤ msize →
      readLE m off (discSize (caseCount cs)) < caseCount cs →
      lift (Ty.variant cs) m msize off
        = (liftOpt (caseGet cs (readLE m off (discSize (caseCount cs)))) m msize
            (off + payloadOff cs)).map
            (Value.variant (readLE m off (discSize (caseCount cs))))) ∧
    flattenTy NewTimestamp = [Core.i32, Core.i64, Core.i32] ∧
    (∀ (m : Mem) (msize off : Nat),
      off + 1 ≤ msize → readLE m off 1 = 0 →
      lift NewTimestamp m msize off = Except.ok (Value.variant 0 OptValue.none)) := by
  have e1 : (256 : Nat) ^ 1 = 0x100 := by norm_num
  have e2 : (256 : Nat) ^ 2 = 0x10000 := by norm_num
  have e4 : (256 : Nat) ^ 4 = 0x100000000 := by norm_num
  refine ⟨fun n hn => ⟨?_, fun w hw hcov => ?_⟩, fun cs v off s => rfl,
    fun cs m msize off hb hd => ?_, by decide, fun m msize off hm h0 => ?_⟩
  · unfold discSize
    split
    · omega
    · split
      · omega
      · omega
  · unfold discSize
    rcases hw with rfl | rfl | rfl <;> split_ifs <;> omega
  · rw [show lift (Ty.variant cs) m msize off
        = Except.bind (readNum m msize off (discSize (caseCount cs))) (fun d =>
            if d < caseCount cs then
              (liftCase cs d m msize (off + payloadOff cs)).map (Value.variant d)
            else Except.error CmError.InvalidDiscriminant) from rfl,
      show readNum m msize off (discSize (caseCount cs))
        = if off + discSize (caseCount cs) ≤ msize
          then Except.ok (readLE m off (discSize (caseCount cs)))
          else Except.error CmError.OutOfBounds from rfl,
      if_pos hb, bindOk, if_pos hd,
      liftCase_eq cs (readLE m off (discSize (caseCount cs))) m msize
        (off + payloadOff cs) hd]
  · have h1 : readNum m msize off 1 = Except.ok 0 := by
      unfold readNum
      rw [if_pos hm, h0]
    rw [show lift NewTimestamp m msize off
        = Except.bind (readNum m msize off 1) (fun d =>
            if d < 3 then
              (liftCase newTimestampCases d m msize (off + payloadOff newTimestampCases)).map
                (Value.variant d)
            else Except.error CmError.InvalidDiscriminant) from rfl,
      h1, bindOk]
    rfl

theorem c6_variant_layout_witness :
    3 ≤ 256 ^ discSize 3 ∧
    lift NewTimestamp (fun a => if a = 0 then 0 else 0xAB) 24 0
      = Except.ok (Value.variant 0 OptValue.none) :=
  ⟨(c6_variant_layout.1 3 (by norm_num)).1,
    c6_variant_layout.2.2.2.2 (fun a => if a = 0 then 0 else 0xAB) 24 0
      (by decide) (by decide)⟩

/-- C7 (counterexample to the claim as stated): bits beyond the last named
flag are NOT always preserved when lifting through a descriptor naming fewer
bits. A 33-bit flags descriptor stores values in two 32-bit words; the value
`2 ^ 40` is in its domain, but lifting its lowered bytes through a 1-bit
flags descriptor (one word) reads only the first word and yields `0`, and
re-lowering `0` with the original descriptor leaves every stored byte `0`:
bit 40 of the original value is dropped, not preserved. -/
theorem c7_flags_cex :
    inDomain (Ty.flags 33) (Value.num (2 ^ 40)) = true ∧
    lift (Ty.flags 1) (lower (Ty.flags 33) (Value.num (2 ^ 40)) 0 ⟨zeroMem, 8⟩).mem 8 0
      = Except.ok (Value.num 0) ∧
    readLE (lower (Ty.flags 33) (Value.num 0) 0 ⟨zeroMem, 8⟩).mem 0 8 = 0 ∧
    (2 ^ 40 : Nat) ≠ 0 := by
  refine ⟨by decide, rfl, by decide, by decide⟩

/-- C7 (amended): a flags value with `n` named bits is stored in exactly
`ceil(n / 32)` 32-bit words, and every bit of the stored value — including
bits beyond the last named flag — is preserved through lower and a lift
through a descriptor naming fewer bits, PROVIDED the narrower descriptor
still spans the same number of 32-bit words; in that case the lift returns
the original value exactly, so re-lowering it reproduces every bit. -/
theorem c7_flags_preserved :
    (∀ n : Nat, byteSize (Ty.flags n) = 4 * ((n + 31) / 32)) ∧
    (∀ (n mNames v off : Nat) (s : LowerState) (msize : Nat),
      flagsWords mNames = flagsWords n →
      v < 2 ^ (32 * flagsWords n) →
      off + 4 * flagsWords n ≤ msize →
      lift (Ty.flags mNames) (lower (Ty.flags n) (Value.num v) off s).mem msize off
        = Except.ok (Value.num v)) := by
  refine ⟨fun n => rfl, fun n mNames v off s msize hw hv hb => ?_⟩
  rw [show lift (Ty.flags mNames) (lower (Ty.flags n) (Value.num v) off s).mem msize off
      = (readNum (lower (Ty.flags n) (Value.num v) off s).mem msize off
          (4 * flagsWords mNames)).map Value.num from rfl]
  unfold readNum
  rw [hw, if_pos hb,
    show (lower (Ty.flags n) (Value.num v) off s).mem
      = writeLE s.mem off (4 * flagsWords n) v from rfl,
    readLE_writeLE s.mem off (4 * flagsWords n) v (by rw [← flags_pow_eq]; exact hv)]
  rfl

theorem c7_flags_preserved_witness :
    byteSize (Ty.flags 6) = 4 * ((6 + 31) / 32) ∧
    lift (Ty.flags 1) (lower (Ty.flags 6) (Value.num 32) 0 ⟨zeroMem, 4⟩).mem 4 0
      = Except.ok (Value.num 32) :=
  ⟨c7_flags_preserved.1 6,
    c7_flags_preserved.2 6 1 32 0 ⟨zeroMem, 4⟩ 4 (by decide) (by decide) (by decide)⟩

theorem lift_wstring_eq (m : Mem) (msize off : Nat) :
    lift Ty.wstring m msize off
      = Except.bind (readNum m msize off 4) (fun p =>
          Except.bind (readNum m msize (off + 4) 4) (fun len =>
            if p + len ≤ msize then
              match utf8Decode (readBytesL m p len) with
              | Option.some s => Except.ok (Value.str s)
              | Option.none => Except.error CmError.EncodingError
            else Except.error CmError.OutOfBounds)) := rfl

theorem lift_list_eq (t : Ty) (m : Mem) (msize off : Nat) :
    lift (Ty.list t) m msize off
      = Except.bind (readNum m msize off 4) (fun p =>
          Except.bind (readNum m msize (off + 4) 4) (fun len =>
            if len ≤ listCeiling ∧ p + len * byteSize t ≤ msize then
              (liftLoop (lift t m msize) p (byteSize t) len).map Value.list
            else Except.error CmError.OutOfBounds)) := rfl

/-- C8: a string lift reads a `(ptr, byteLength)` pair and validates the
bytes as UTF-8: when they are not valid UTF-8 the lift fails with
`EncodingError`, and it never succeeds by substituting replacement
characters — every successful lift returns scalars that re-encode to exactly
the original bytes (lossless round trip), all of them valid Unicode
scalars. -/
theorem c8_string_utf8 :
    (∀ (m : Mem) (msize off : Nat),
      off + 4 + 4 ≤ msize →
      readLE m off 4 + readLE m (off + 4) 4 ≤ msize →
      utf8Decode (readBytesL m (readLE m off 4) (readLE m (off + 4) 4)) = Option.none →
      lift Ty.wstring m msize off = Except.error CmError.EncodingError) ∧
    (∀ (m : Mem) (msize off : Nat) (s : List Nat),
      lift Ty.wstring m msize off = Except.ok (Value.str s) →
      utf8Encode s = readBytesL m (readLE m off 4) (readLE m (off + 4) 4) ∧
      ∀ c ∈ s, validScalar c = true) := by
  constructor
  · intro m msize off hb hpl hdec
    have e1 : readNum m msize off 4 = Except.ok (readLE m off 4) := by
      unfold readNum
      rw [if_pos (by omega)]
    have e2 : readNum m msize (off + 4) 4 = Except.ok (readLE m (off + 4) 4) := by
      unfold readNum
      rw [if_pos (by omega)]
    rw [lift_wstring_eq, e1, bindOk, e2, bindOk, if_pos hpl, hdec]
  · intro m msize off sVal hok
    rw [lift_wstring_eq] at hok
    unfold readNum at hok
    by_cases hb1 : off + 4 ≤ msize
    · rw [if_pos hb1, bindOk] at hok
      by_cases hb2 : off + 4 + 4 ≤ msize
      · rw [if_pos hb2, bindOk] at hok
        by_cases hb3 : readLE m off 4 + readLE m (off + 4) 4 ≤ msize
        · rw [if_pos hb3] at hok
          cases hdec : utf8Decode (readBytesL m (readLE m off 4) (readLE m (off + 4) 4)) with
          | none =>
            rw [hdec] at hok
            exact absurd hok (by simp)
          | some s0 =>
            rw [hdec] at hok
            obtain rfl : s0 = sVal := by simpa using hok
            exact utf8Encode_utf8Decode _ s0 hdec
        · rw [if_neg hb3] at hok
          exact absurd hok (by simp)
      · rw [if_neg hb2] at hok
        exact absurd hok (by simp [Except.bind])
    · rw [if_neg hb1] at hok
      exact absurd hok (by simp [Except.bind])

theorem c8_string_utf8_witness :
    lift Ty.wstring
        (fun a => if a = 0 then 8 else if a = 4 then 2 else
          if a = 8 then 0x41 else if a = 9 then 0xFF else 0) 10 0
      = Except.error CmError.EncodingError ∧
    utf8Encode [0x41]
      = readBytesL (fun a => if a = 0 then 8 else if a = 4 then 1 else
          if a = 8 then 0x41 else 0)
          (readLE (fun a => if a = 0 then 8 else if a = 4 then 1 else
            if a = 8 then 0x41 else 0) 0 4)
          (readLE (fun a => if a = 0 then 8 else if a = 4 then 1 else
            if a = 8 then 0x41 else 0) (0 + 4) 4) :=
  ⟨c8_string_utf8.1
      (fun a => if a = 0 then 8 else if a = 4 then 2 else
        if a = 8 then 0x41 else if a = 9 then 0xFF else 0) 10 0
      (by decide) (by decide) (by decide),
    (c8_string_utf8.2
      (fun a => if a = 0 then 8 else if a = 4 then 1 else if a = 8 then 0x41 else 0)
      9 0 [0x41] rfl).1⟩

/-- C9: a list lift reads the `(ptr, len)` pair and bounds-checks before any
element read: whenever `len` exceeds the sanity ceiling or
`ptr + len * stride` exceeds the memory size it fails with `OutOfBounds`,
and lifting at any type depends only on the bytes below the memory size, so
no out-of-range memory access is ever performed. -/
theorem c9_list_bounds :
    (∀ (t : Ty) (m : Mem) (msize off : Nat),
      off + 4 + 4 ≤ msize →
      (listCeiling < readLE m (off + 4) 4 ∨
        msize < readLE m off 4 + readLE m (off + 4) 4 * byteSize t) →
      lift (Ty.list t) m msize off = Except.error CmError.OutOfBounds) ∧
    (∀ (t : Ty) (m m2 : Mem) (msize off : Nat),
      (∀ a, a < msize → m a = m2 a) →
      lift t m msize off = lift t m2 msize off) := by
  constructor
  · intro t m msize off hb hbad
    have e1 : readNum m msize off 4 = Except.ok (readLE m off 4) := by
      unfold readNum
      rw [if_pos (by omega)]
    have e2 : readNum m msize (off + 4) 4 = Except.ok (readLE m (off + 4) 4) := by
      unfold readNum
      rw [if_pos (by omega)]
    have hne : ¬ (readLE m (off + 4) 4 ≤ listCeiling ∧
        readLE m off 4 + readLE m (off + 4) 4 * byteSize t ≤ msize) := by
      rintro ⟨hA, hB⟩
      rcases hbad with h | h
      · omega
      · exact absurd hB (not_le.mpr h)
    rw [lift_list_eq, e1, bindOk, e2, bindOk, if_neg hne]
  · exact lift_ext

theorem c9_list_bounds_witness :
    lift (Ty.list Ty.u32) (fun _ => 0xFF) 8 0 = Except.error CmError.OutOfBounds ∧
    lift Ty.u32 (fun _ => 7) 4 0 = lift Ty.u32 (fun a => if a < 4 then 7 else 99) 4 0 :=
  ⟨c9_list_bounds.1 Ty.u32 (fun _ => 0xFF) 8 0 (by decide) (by decide),
    c9_list_bounds.2 Ty.u32 (fun _ => 7) (fun a => if a < 4 then 7 else 99) 4 0
      (fun a ha => (if_pos ha).symm)⟩

/-- C10: `Options.validate` returns true exactly when both `file` and
`outDir` are set to truthy values; when `file` is missing it returns false
after writing "Missing file argument." to stderr, and when `file` is present
but `outDir` is missing it returns false after writing "Missing outDir
argument."; the options value itself is left unmodified (the checks only
read it). -/
theorem c10_options_validate :
    (∀ o : Options,
      (validate o).1 = true ↔ (truthy o.file = true ∧ truthy o.outDir = true)) ∧
    (∀ o : Options, truthy o.file = false →
      validate o = (false, ["Missing file argument.\n"])) ∧
    (∀ o : Options, truthy o.file = true → truthy o.outDir = false →
      validate o = (false, ["Missing outDir argument.\n"])) := by
  refine ⟨fun o => ?_, fun o hf => ?_, fun o hf ho => ?_⟩
  · unfold validate
    by_cases hf : truthy o.file = true
    · rw [if_neg (by simp [hf])]
      by_cases ho : truthy o.outDir = true
      · rw [if_neg (by simp [ho])]
        simp [hf, ho]
      · rw [if_pos (by simpa using ho)]
        simp [ho]
    · rw [if_pos (by simpa using hf)]
      simp [hf]
  · unfold validate
    rw [if_pos (by simp [hf])]
  · unfold validate
    rw [if_neg (by simp [hf]), if_pos (by simp [ho])]

theorem c10_options_validate_witness :
    ((validate ⟨false, false, Option.some "out", ".*", Option.some "in.wat"⟩).1 = true ↔
      (truthy (Options.mk false false (Option.some "out") ".*"
          (Option.some "in.wat")).file = true ∧
        truthy (Options.mk false false (Option.some "out") ".*"
          (Option.some "in.wat")).outDir = true)) ∧
    validate ⟨false, false, Option.some "out", ".*", Option.none⟩
      = (false, ["Missing file argument.\n"]) ∧
    validate ⟨false, false, Option.none, ".*", Option.some "in.wat"⟩
      = (false, ["Missing outDir argument.\n"]) :=
  ⟨c10_options_validate.1 ⟨false, false, Option.some "out", ".*", Option.some "in.wat"⟩,
    c10_options_validate.2.1 ⟨false, false, Option.some "out", ".*", Option.none⟩ rfl,
    c10_options_validate.2.2 ⟨false, false, Option.none, ".*", Option.some "in.wat"⟩
      (by decide) rfl⟩

end Wcm
